import Mathlib

/-!
Verification of the checkpoint-retention logic of
`dar_package/train_contours.py` (`run`, lines 159-195).

The source keeps a Python `heapq` of pairs `(-val_loss, checkpoint_path)`.
Each epoch it pushes the pair for the current epoch, and when the heap has
grown beyond `keep_best` it pops the smallest tuple; if the popped path is
the just-pushed path the checkpoint is never written ("rejected without
write"), otherwise the new checkpoint is written and the popped path's file
is removed.  At run end the path stored at `checkpoint_heap[0]` is copied
out as the "best" checkpoint.

The embedding models:
 * scores as `HVal` (a rational, or the float `nan` whose Python
   comparisons all return `False`);
 * paths as lists of character codes, compared lexicographically exactly as
   Python compares strings;
 * the heap as the literal CPython array algorithm (`_siftdown`,
   `_siftup`, `heappush`, `heappop`), since the source's behaviour on `nan`
   scores depends on the array-level algorithm and not merely on the
   documented pop-the-minimum contract.
-/

set_option maxHeartbeats 1000000

namespace TrainContours

/-- A value as it occurs in the first slot of a heap tuple
(`-val_losses.val` in the source): either a finite float, modelled as a
rational, or the float `nan`. -/
inductive HVal where
  | nan : HVal
  | fin : ℚ → HVal
deriving DecidableEq

/-- Python `==` on the first tuple slots: `nan == x` is `False` for every
`x`, including `nan` itself; finite floats compare by value. -/
def HVal.eqb : HVal → HVal → Bool
  | .fin a, .fin b => a == b
  | _, _ => false

/-- Python `<` on the first tuple slots: every comparison involving `nan`
is `False`; finite floats compare by value. -/
def HVal.ltb : HVal → HVal → Bool
  | .fin a, .fin b => decide (a < b)
  | _, _ => false

/-- Is this a finite (non-`nan`) value? -/
def HVal.isFin : HVal → Bool
  | .fin _ => true
  | .nan => false

/-- Python unary minus, as applied to `val_losses.val` at the push site;
`-nan` still compares like `nan`. -/
def HVal.neg : HVal → HVal
  | .nan => .nan
  | .fin q => .fin (-q)

/-- A checkpoint path, as its list of character codes. -/
abbrev Path := List ℕ

/-- Python string `<` on paths: lexicographic by character code. -/
def lexLt : Path → Path → Bool
  | [], [] => false
  | [], _ :: _ => true
  | _ :: _, [] => false
  | a :: as, b :: bs => if a < b then true else if b < a then false else lexLt as bs

/-- A heap element: the tuple `(-val_loss, checkpoint_path)` pushed at
line 168 of the source. -/
abbrev E := HVal × Path

/-- Default element used for (always in-bounds) list indexing. -/
def dE : E := (HVal.nan, [])

/-- Python tuple `<` on heap elements: if the first slots are `==` the
paths decide, otherwise the first slots' `<` decides. -/
def eLt (a b : E) : Bool :=
  if HVal.eqb a.1 b.1 then lexLt a.2 b.2 else HVal.ltb a.1 b.1

/-! ### Order facts about `lexLt`, `HVal` and `eLt` -/

@[simp] theorem lexLt_nil_nil : lexLt [] [] = false := rfl

@[simp] theorem lexLt_nil_cons (b : ℕ) (bs : Path) : lexLt [] (b :: bs) = true := rfl

@[simp] theorem lexLt_cons_nil (a : ℕ) (as : Path) : lexLt (a :: as) [] = false := rfl

theorem lexLt_cons_cons (a b : ℕ) (as bs : Path) :
    lexLt (a :: as) (b :: bs) =
      if a < b then true else if b < a then false else lexLt as bs := rfl

theorem lexLt_irrefl (p : Path) : lexLt p p = false := by
  induction p with
  | nil => rfl
  | cons a as ih => rw [lexLt_cons_cons, if_neg (by omega), if_neg (by omega), ih]

theorem lexLt_trans {p q r : Path} (h1 : lexLt p q = true) (h2 : lexLt q r = true) :
    lexLt p r = true := by
  induction p generalizing q r with
  | nil =>
    cases q with
    | nil => simp at h1
    | cons b bs =>
      cases r with
      | nil => simp at h2
      | cons c cs => simp
  | cons a as ih =>
    cases q with
    | nil => simp at h1
    | cons b bs =>
      cases r with
      | nil => simp at h2
      | cons c cs =>
        rw [lexLt_cons_cons] at h1 h2 ⊢
        by_cases hab : a < b
        · by_cases hbc : b < c
          · rw [if_pos (by omega)]
          · rw [if_neg hbc] at h2
            by_cases hcb : c < b
            · rw [if_pos hcb] at h2; exact absurd h2 (by simp)
            · have hbc' : b = c := by omega
              subst hbc'; rw [if_pos hab]
        · rw [if_neg hab] at h1
          by_cases hba : b < a
          · rw [if_pos hba] at h1; exact absurd h1 (by simp)
          · have hab' : a = b := by omega
            subst hab'
            rw [if_neg (by omega)] at h1
            by_cases hac : a < c
            · rw [if_pos hac]
            · rw [if_neg hac] at h2 ⊢
              by_cases hca : c < a
              · rw [if_pos hca] at h2; exact absurd h2 (by simp)
              · rw [if_neg hca] at h2 ⊢
                exact ih h1 h2

theorem lexLt_trichotomy (p q : Path) :
    lexLt p q = true ∨ p = q ∨ lexLt q p = true := by
  induction p generalizing q with
  | nil => cases q <;> simp
  | cons a as ih =>
    cases q with
    | nil => simp
    | cons b bs =>
      by_cases hab : a < b
      · left; rw [lexLt_cons_cons, if_pos hab]
      · by_cases hba : b < a
        · right; right; rw [lexLt_cons_cons, if_pos hba]
        · have : a = b := by omega
          subst this
          rcases ih bs with h | h | h
          · left; rw [lexLt_cons_cons, if_neg (by omega), if_neg (by omega), h]
          · right; left; rw [h]
          · right; right; rw [lexLt_cons_cons, if_neg (by omega), if_neg (by omega), h]

theorem lexLt_asymm {p q : Path} (h : lexLt p q = true) : lexLt q p = false := by
  cases hx : lexLt q p with
  | false => rfl
  | true =>
    have := lexLt_trans h hx
    rw [lexLt_irrefl] at this
    simp at this

/-- Any true `eLt` fact forces both first slots to be finite. -/
theorem eLt_fin {a b : E} (h : eLt a b = true) :
    a.1.isFin = true ∧ b.1.isFin = true := by
  unfold eLt at h
  cases ha : a.1 <;> cases hb : b.1 <;>
    simp [ha, hb, HVal.eqb, HVal.ltb, HVal.isFin] at h ⊢

theorem eLt_irrefl (a : E) : eLt a a = false := by
  unfold eLt
  cases h : a.1 <;> simp [HVal.eqb, HVal.ltb, lexLt_irrefl]

theorem eLt_fin_fin (x y : ℚ) (p q : Path) :
    eLt (HVal.fin x, p) (HVal.fin y, q) =
      if x = y then lexLt p q else decide (x < y) := by
  unfold eLt
  by_cases hxy : x = y <;> simp [HVal.eqb, HVal.ltb, hxy]

theorem eLt_trans {a b c : E} (h1 : eLt a b = true) (h2 : eLt b c = true) :
    eLt a c = true := by
  obtain ⟨haf, hbf⟩ := eLt_fin h1
  obtain ⟨-, hcf⟩ := eLt_fin h2
  obtain ⟨a1, pa⟩ := a
  obtain ⟨b1, pb⟩ := b
  obtain ⟨c1, pc⟩ := c
  cases a1 with
  | nan => simp [HVal.isFin] at haf
  | fin x =>
  cases b1 with
  | nan => simp [HVal.isFin] at hbf
  | fin y =>
  cases c1 with
  | nan => simp [HVal.isFin] at hcf
  | fin z =>
  rw [eLt_fin_fin] at h1 h2 ⊢
  by_cases hxy : x = y
  · subst hxy
    rw [if_pos rfl] at h1
    by_cases hxz : x = z
    · subst hxz
      rw [if_pos rfl] at h2 ⊢
      exact lexLt_trans h1 h2
    · rw [if_neg hxz] at h2 ⊢
      exact h2
  · rw [if_neg hxy] at h1
    have hxy' : x < y := of_decide_eq_true h1
    by_cases hyz : y = z
    · subst hyz
      rw [if_neg hxy]
      simpa using hxy'
    · rw [if_neg hyz] at h2
      have hyz' : y < z := of_decide_eq_true h2
      rw [if_neg (by intro h; subst h; exact absurd (lt_trans hxy' hyz') (lt_irrefl x))]
      simpa using lt_trans hxy' hyz'

theorem eLt_asymm {a b : E} (h : eLt a b = true) : eLt b a = false := by
  cases hx : eLt b a with
  | false => rfl
  | true =>
    have := eLt_trans h hx
    rw [eLt_irrefl] at this
    simp at this

/-- Trichotomy for finite-score elements. -/
theorem eLt_trichotomy {a b : E} (ha : a.1.isFin = true) (hb : b.1.isFin = true) :
    eLt a b = true ∨ a = b ∨ eLt b a = true := by
  obtain ⟨qa, pa⟩ := a
  obtain ⟨qb, pb⟩ := b
  cases qa with
  | nan => simp [HVal.isFin] at ha
  | fin x =>
  cases qb with
  | nan => simp [HVal.isFin] at hb
  | fin y =>
  by_cases hxy : x = y
  · subst hxy
    rcases lexLt_trichotomy pa pb with h | h | h
    · left; rw [eLt_fin_fin, if_pos rfl]; exact h
    · right; left; rw [h]
    · right; right; rw [eLt_fin_fin, if_pos rfl]; exact h
  · rcases lt_trichotomy x y with h | h | h
    · left; rw [eLt_fin_fin, if_neg hxy]; simpa using h
    · exact absurd h hxy
    · right; right
      rw [eLt_fin_fin, if_neg (fun hyx => hxy hyx.symm)]
      simpa using h

/-- Negative transitivity on finite-score elements: `≤` is transitive. -/
theorem eLt_neg_trans {a b c : E}
    (ha : a.1.isFin = true) (hb : b.1.isFin = true) (hc : c.1.isFin = true)
    (h1 : eLt a b = false) (h2 : eLt b c = false) : eLt a c = false := by
  cases hac : eLt a c with
  | false => rfl
  | true =>
    exfalso
    rcases eLt_trichotomy ha hb with h | h | h
    · rw [h] at h1; simp at h1
    · subst h; rw [hac] at h2; simp at h2
    · rcases eLt_trichotomy hb hc with h' | h' | h'
      · rw [h'] at h2; simp at h2
      · subst h'; rw [hac] at h1; simp at h1
      · have hca := eLt_trans h' h
        have := eLt_asymm hca
        rw [hac] at this
        simp at this

/-! ### The CPython `heapq` array algorithm

`siftdownAux` is `heapq._siftdown(heap, startpos, pos)` with the local
variable `newitem = heap[pos]` made an explicit argument, and `siftupAux`
is `heapq._siftup(heap, pos)` likewise (its trailing `_siftdown` call is
the `else` branch).  `heappush` and `heappop` are the library entry points
used at lines 168 and 172 of the source. -/

/-- The parent index of slot `j` in the array layout of a binary heap. -/
def par (j : ℕ) : ℕ := (j - 1) / 2

/-- `heapq._siftdown`: bubble `newitem` up from `pos` toward `startpos`,
moving parents down while `newitem` compares strictly below them.  The
`while` loop is expressed by structural recursion on a fuel: the slot index
strictly decreases along the parent chain, so any fuel `≥ pos` (callers
pass exactly `pos`) makes the fueled loop agree with the unbounded one. -/
def siftdownAux : ℕ → List E → ℕ → ℕ → E → List E
  | 0, heap, _startpos, pos, newitem => heap.set pos newitem
  | fuel + 1, heap, startpos, pos, newitem =>
    if startpos < pos then
      let parentpos := par pos
      let parent := heap.getD parentpos dE
      if eLt newitem parent then
        siftdownAux fuel (heap.set pos parent) startpos parentpos newitem
      else
        heap.set pos newitem
    else
      heap.set pos newitem

/-- `heapq.heappush(heap, item)`: append, then sift down from the last slot. -/
def heappush (heap : List E) (item : E) : List E :=
  siftdownAux heap.length (heap ++ [item]) 0 heap.length item

/-- `heapq._siftup`: move the smaller child up into the hole at `pos` until
reaching a leaf, then place `newitem` there and bubble it back up.  The
`while` loop is again fueled: the index moves to a child each iteration,
so any fuel `≥ heap.length - pos` makes the fueled loop agree with the
unbounded one. -/
def siftupAux : ℕ → List E → ℕ → ℕ → E → List E
  | 0, heap, startpos, pos, newitem =>
    siftdownAux pos (heap.set pos newitem) startpos pos newitem
  | fuel + 1, heap, startpos, pos, newitem =>
    if 2 * pos + 1 < heap.length then
      let childpos :=
        if 2 * pos + 2 < heap.length ∧
            ¬ eLt (heap.getD (2 * pos + 1) dE) (heap.getD (2 * pos + 2) dE) = true then
          2 * pos + 2
        else 2 * pos + 1
      siftupAux fuel (heap.set pos (heap.getD childpos dE)) startpos childpos newitem
    else
      siftdownAux pos (heap.set pos newitem) startpos pos newitem

/-- `heapq.heappop(heap)`: pop the final array slot; if the heap is still
nonempty, return the old root after sifting the popped slot's value from
the root.  `none` models Python's `IndexError` on an empty heap. -/
def heappop (heap : List E) : Option (E × List E) :=
  match heap.getLast? with
  | none => none
  | some lastelt =>
    match heap.dropLast with
    | [] => some (lastelt, [])
    | r :: t => some (r, siftupAux (t.length + 1) (lastelt :: t) 0 0 lastelt)

/-! ### Shape lemmas: length and multiset content -/

theorem siftdownAux_length (fuel : ℕ) (heap : List E) (startpos pos : ℕ) (newitem : E) :
    (siftdownAux fuel heap startpos pos newitem).length = heap.length := by
  induction fuel generalizing heap pos with
  | zero => exact List.length_set ..
  | succ n ih =>
    simp only [siftdownAux]
    split
    · split
      · rw [ih, List.length_set]
      · exact List.length_set ..
    · exact List.length_set ..

theorem siftupAux_length (fuel : ℕ) (heap : List E) (startpos pos : ℕ) (newitem : E) :
    (siftupAux fuel heap startpos pos newitem).length = heap.length := by
  induction fuel generalizing heap pos with
  | zero =>
    show (siftdownAux pos (heap.set pos newitem) startpos pos newitem).length = heap.length
    rw [siftdownAux_length, List.length_set]
  | succ n ih =>
    simp only [siftupAux]
    split
    · rw [ih, List.length_set]
    · rw [siftdownAux_length, List.length_set]

theorem heappush_length (heap : List E) (item : E) :
    (heappush heap item).length = heap.length + 1 := by
  rw [heappush, siftdownAux_length, List.length_append, List.length_singleton]

/-- Indexed read/write helpers. -/
theorem getD_set_self (l : List E) (i : ℕ) (x : E) (h : i < l.length) :
    (l.set i x).getD i dE = x := by
  rw [List.getD_eq_getElem _ _ (by simpa using h)]
  exact List.getElem_set_self _

theorem getD_set_ne (l : List E) (i j : ℕ) (x : E) (h : i ≠ j) :
    (l.set i x).getD j dE = l.getD j dE := by
  by_cases hj : j < l.length
  · rw [List.getD_eq_getElem _ _ (by simpa using hj), List.getD_eq_getElem _ _ hj]
    exact List.getElem_set_ne h _
  · rw [List.getD_eq_default _ _ (by simpa using hj), List.getD_eq_default _ _ (by omega)]

/-- Setting slot `i` replaces the element at `i` in the multiset sense. -/
theorem ms_set (l : List E) (i : ℕ) (x : E) (h : i < l.length) :
    (↑(l.set i x) : Multiset E) + {l.getD i dE} = ↑l + {x} := by
  induction l generalizing i with
  | nil => simp at h
  | cons a t ih =>
    cases i with
    | zero =>
      show (↑(x :: t) : Multiset E) + {a} = ↑(a :: t) + {x}
      show (x ::ₘ (↑t : Multiset E)) + {a} = (a ::ₘ ↑t) + {x}
      rw [Multiset.cons_add, Multiset.cons_add,
        add_comm (↑t : Multiset E) {a}, add_comm (↑t : Multiset E) {x},
        Multiset.singleton_add, Multiset.singleton_add, Multiset.cons_swap]
    | succ n =>
      show (↑(a :: t.set n x) : Multiset E) + {t.getD n dE} = ↑(a :: t) + {x}
      have hn : n < t.length := by simpa using h
      show (a ::ₘ (↑(t.set n x) : Multiset E)) + {t.getD n dE} = (a ::ₘ ↑t) + {x}
      rw [Multiset.cons_add, Multiset.cons_add, ih n hn]

theorem ms_siftdownAux (fuel : ℕ) (heap : List E) (startpos pos : ℕ) (newitem : E)
    (hpos : pos < heap.length) :
    (↑(siftdownAux fuel heap startpos pos newitem) : Multiset E)
      = ↑(heap.set pos newitem) := by
  induction fuel generalizing heap pos with
  | zero => rfl
  | succ n ih =>
    simp only [siftdownAux]
    split
    · rename_i hsp
      split
      · rename_i hlt
        set pp := par pos with hpp
        have hppos : pp < pos := by rw [hpp]; simp only [par]; omega
        have hpplen : pp < heap.length := by omega
        rw [ih _ pp (by simpa using hpplen)]
        have h1 : (↑((heap.set pos (heap.getD pp dE)).set pp newitem) : Multiset E)
            + {(heap.set pos (heap.getD pp dE)).getD pp dE}
            = ↑(heap.set pos (heap.getD pp dE)) + {newitem} :=
          ms_set _ pp newitem (by simpa using hpplen)
        rw [getD_set_ne _ _ _ _ (by omega)] at h1
        have h2 : (↑(heap.set pos (heap.getD pp dE)) : Multiset E) + {heap.getD pos dE}
            = ↑heap + {heap.getD pp dE} := ms_set _ pos _ hpos
        have h3 : (↑(heap.set pos newitem) : Multiset E) + {heap.getD pos dE}
            = ↑heap + {newitem} := ms_set _ pos _ hpos
        have hbig : (↑((heap.set pos (heap.getD pp dE)).set pp newitem) : Multiset E)
            + {heap.getD pos dE} + {heap.getD pp dE}
            = ↑heap + {newitem} + {heap.getD pp dE} := by
          rw [add_right_comm, h1, add_right_comm, h2, add_right_comm]
        have h4 := add_right_cancel hbig
        rw [← h3] at h4
        exact add_right_cancel h4
      · rfl
    · rfl

theorem ms_siftupAux (fuel : ℕ) (heap : List E) (startpos pos : ℕ) (newitem : E)
    (hpos : pos < heap.length) :
    (↑(siftupAux fuel heap startpos pos newitem) : Multiset E)
      = ↑(heap.set pos newitem) := by
  induction fuel generalizing heap pos with
  | zero =>
    show (↑(siftdownAux pos (heap.set pos newitem) startpos pos newitem) : Multiset E)
      = ↑(heap.set pos newitem)
    rw [ms_siftdownAux _ _ _ _ _ (by simpa using hpos)]
    have heq : (heap.set pos newitem).set pos newitem = heap.set pos newitem :=
      List.set_set ..
    rw [heq]
  | succ n ih =>
    simp only [siftupAux]
    split
    · rename_i hlt
      set cp := if 2 * pos + 2 < heap.length ∧
          ¬ eLt (heap.getD (2 * pos + 1) dE) (heap.getD (2 * pos + 2) dE) = true then
          2 * pos + 2 else 2 * pos + 1 with hcp
      have hcplen : cp < heap.length := by
        rw [hcp]; split <;> omega
      have hcpgt : pos < cp := by
        rw [hcp]; split <;> omega
      rw [ih _ cp (by simpa using hcplen)]
      have h1 : (↑((heap.set pos (heap.getD cp dE)).set cp newitem) : Multiset E)
          + {(heap.set pos (heap.getD cp dE)).getD cp dE}
          = ↑(heap.set pos (heap.getD cp dE)) + {newitem} :=
        ms_set _ cp newitem (by simpa using hcplen)
      rw [getD_set_ne _ _ _ _ (by omega)] at h1
      have h2 : (↑(heap.set pos (heap.getD cp dE)) : Multiset E) + {heap.getD pos dE}
          = ↑heap + {heap.getD cp dE} := ms_set _ pos _ hpos
      have h3 : (↑(heap.set pos newitem) : Multiset E) + {heap.getD pos dE}
          = ↑heap + {newitem} := ms_set _ pos _ hpos
      have hbig : (↑((heap.set pos (heap.getD cp dE)).set cp newitem) : Multiset E)
          + {heap.getD pos dE} + {heap.getD cp dE}
          = ↑heap + {newitem} + {heap.getD cp dE} := by
        rw [add_right_comm, h1, add_right_comm, h2, add_right_comm]
      have h4 := add_right_cancel hbig
      rw [← h3] at h4
      exact add_right_cancel h4
    · rw [ms_siftdownAux _ _ _ _ _ (by simpa using hpos)]
      have heq : (heap.set pos newitem).set pos newitem = heap.set pos newitem :=
        List.set_set ..
      rw [heq]

/-- Pushing adds the item to the heap's contents. -/
theorem ms_heappush (heap : List E) (item : E) :
    (↑(heappush heap item) : Multiset E) = ↑heap + {item} := by
  rw [heappush, ms_siftdownAux _ _ _ _ _ (by simp)]
  have h1 : (↑((heap ++ [item]).set heap.length item) : Multiset E)
      + {(heap ++ [item]).getD heap.length dE}
      = ↑(heap ++ [item]) + {item} := ms_set _ _ _ (by simp)
  have h2 : (heap ++ [item]).getD heap.length dE = item := by
    rw [List.getD_eq_getElem _ _ (by simp)]
    simp
  rw [h2] at h1
  have h3 := add_right_cancel h1
  rw [h3]
  show ((heap ++ [item] : List E) : Multiset E) = ↑heap + {item}
  rw [← Multiset.coe_add]
  rfl

/-! ### The binary-heap invariant and its preservation -/

theorem par_eq (j : ℕ) : par j = (j - 1) / 2 := rfl

/-- The invariant `heapq` maintains on the array: no child slot compares
strictly below its parent slot. -/
def IsHeap (l : List E) : Prop :=
  ∀ j, j < l.length → 0 < j → eLt (l.getD j dE) (l.getD (par j) dE) = false

/-- All stored first slots are finite (no `nan` has been pushed). -/
def AllFin (l : List E) : Prop := ∀ e ∈ l, e.1.isFin = true

theorem getD_mem {l : List E} {j : ℕ} (h : j < l.length) : l.getD j dE ∈ l := by
  rw [List.getD_eq_getElem _ _ h]
  exact List.getElem_mem _

theorem allFin_set {l : List E} {x : E} (hl : AllFin l) (hx : x.1.isFin = true)
    (i : ℕ) : AllFin (l.set i x) := by
  intro e he
  rcases List.mem_or_eq_of_mem_set he with h | h
  · exact hl e h
  · subst h; exact hx

/-- Main lemma for `_siftdown` (bubble-up): if the array is a heap except
for a hole at `pos` destined to hold `newitem` — all non-hole edges of
`heap.set pos newitem` respect the heap order and the hole's children are
already no smaller than the hole's parent — then sifting restores the
invariant everywhere. -/
theorem siftdownAux_isHeap :
    ∀ (fuel pos : ℕ) (heap : List E) (x : E), pos ≤ fuel → pos < heap.length →
    AllFin heap → x.1.isFin = true →
    (∀ j, j < heap.length → 0 < j → j ≠ pos →
        eLt ((heap.set pos x).getD j dE) ((heap.set pos x).getD (par j) dE) = false) →
    (∀ j, j < heap.length → par j = pos → 0 < pos →
        eLt ((heap.set pos x).getD j dE) ((heap.set pos x).getD (par pos) dE) = false) →
    IsHeap (siftdownAux fuel heap 0 pos x) := by
  intro fuel
  induction fuel with
  | zero =>
    intro pos heap x hfuel hpos hfin hxfin pre1 pre2
    have hpos0 : pos = 0 := by omega
    subst hpos0
    show IsHeap (heap.set 0 x)
    intro j hj hj0
    rw [List.length_set] at hj
    exact pre1 j hj hj0 (by omega)
  | succ n ih =>
    intro pos heap x hfuel hpos hfin hxfin pre1 pre2
    simp only [siftdownAux]
    split
    · rename_i hsp
      have hppos : par pos < pos := by simp only [par_eq]; omega
      have hpplen : par pos < heap.length := by omega
      by_cases hlt : eLt x (heap.getD (par pos) dE) = true
      · rw [if_pos hlt]
        -- recursive case: the hole moves up to `par pos`
        have hppne : par pos ≠ pos := by omega
        have hpre1 : ∀ j, j < (heap.set pos (heap.getD (par pos) dE)).length → 0 < j →
            j ≠ par pos →
            eLt (((heap.set pos (heap.getD (par pos) dE)).set (par pos) x).getD j dE)
              (((heap.set pos (heap.getD (par pos) dE)).set (par pos) x).getD (par j) dE)
              = false := by
          intro j hj hj0 hjne
          rw [List.length_set] at hj
          by_cases hjpos : j = pos
          · rw [hjpos]
            have h1 : ((heap.set pos (heap.getD (par pos) dE)).set (par pos) x).getD pos dE
                = heap.getD (par pos) dE := by
              rw [getD_set_ne _ _ _ _ (by omega), getD_set_self _ _ _ hpos]
            have h2 : ((heap.set pos (heap.getD (par pos) dE)).set (par pos) x).getD
                (par pos) dE = x :=
              getD_set_self _ _ _ (by simpa using hpplen)
            rw [h1, h2]
            exact eLt_asymm hlt
          · have hgj : ((heap.set pos (heap.getD (par pos) dE)).set (par pos) x).getD j dE
                = heap.getD j dE := by
              rw [getD_set_ne _ _ _ _ (fun h => hjne h.symm),
                getD_set_ne _ _ _ _ (fun h => hjpos h.symm)]
            by_cases hpj : par j = pos
            · -- j is a child of the old hole: use the grandparent condition
              have hgp : ((heap.set pos (heap.getD (par pos) dE)).set (par pos) x).getD
                  (par j) dE = heap.getD (par pos) dE := by
                rw [hpj, getD_set_ne _ _ _ _ (by omega), getD_set_self _ _ _ hpos]
              rw [hgj, hgp]
              have hq := pre2 j hj hpj (by omega)
              rwa [getD_set_ne _ _ _ _ (fun h => hjpos h.symm),
                getD_set_ne _ _ _ _ (fun h => hppne h.symm)] at hq
            · by_cases hpjp : par j = par pos
              · -- j is the hole's sibling (or old slot): compare through `x`
                have hgp : ((heap.set pos (heap.getD (par pos) dE)).set (par pos) x).getD
                    (par j) dE = x := by
                  rw [hpjp]
                  exact getD_set_self _ _ _ (by simpa using hpplen)
                rw [hgj, hgp]
                have hjpv := pre1 j hj hj0 hjpos
                rw [getD_set_ne _ _ _ _ (fun h => hjpos h.symm)] at hjpv
                rw [hpjp, getD_set_ne _ _ _ _ (fun h => hppne h.symm)] at hjpv
                cases hc : eLt (heap.getD j dE) x with
                | false => rfl
                | true =>
                  have hcc := eLt_trans hc hlt
                  rw [hcc] at hjpv
                  simp at hjpv
              · -- an edge untouched by the move
                have hgp : ((heap.set pos (heap.getD (par pos) dE)).set (par pos) x).getD
                    (par j) dE = heap.getD (par j) dE := by
                  rw [getD_set_ne _ _ _ _ (fun h => hpjp h.symm),
                    getD_set_ne _ _ _ _ (fun h => hpj h.symm)]
                rw [hgj, hgp]
                have hq := pre1 j hj hj0 hjpos
                rwa [getD_set_ne _ _ _ _ (fun h => hjpos h.symm),
                  getD_set_ne _ _ _ _ (fun h => hpj h.symm)] at hq
        have hpre2 : ∀ j, j < (heap.set pos (heap.getD (par pos) dE)).length →
            par j = par pos → 0 < par pos →
            eLt (((heap.set pos (heap.getD (par pos) dE)).set (par pos) x).getD j dE)
              (((heap.set pos (heap.getD (par pos) dE)).set (par pos) x).getD
                (par (par pos)) dE) = false := by
          intro j hj hpj hpp0
          rw [List.length_set] at hj
          have hppp : par (par pos) < par pos := by
            have h2 := hpp0
            simp only [par_eq] at h2 ⊢
            omega
          have hgp : ((heap.set pos (heap.getD (par pos) dE)).set (par pos) x).getD
              (par (par pos)) dE = heap.getD (par (par pos)) dE := by
            rw [getD_set_ne _ _ _ _ (by omega), getD_set_ne _ _ _ _ (by omega)]
          have hpp_edge := pre1 (par pos) hpplen hpp0 hppne
          rw [getD_set_ne _ _ _ _ (fun h => hppne h.symm),
            getD_set_ne _ _ _ _ (by omega)] at hpp_edge
          have hjgt : 0 < j ∧ par pos < j := by
            have h1 := hpj
            have h2 := hpp0
            simp only [par_eq] at h1 h2 ⊢
            omega
          by_cases hjpos : j = pos
          · rw [hjpos]
            have h1 : ((heap.set pos (heap.getD (par pos) dE)).set (par pos) x).getD pos dE
                = heap.getD (par pos) dE := by
              rw [getD_set_ne _ _ _ _ (by omega), getD_set_self _ _ _ hpos]
            rw [h1, hgp]
            exact hpp_edge
          · have hjne : j ≠ par pos := by omega
            have hgj : ((heap.set pos (heap.getD (par pos) dE)).set (par pos) x).getD j dE
                = heap.getD j dE := by
              rw [getD_set_ne _ _ _ _ (fun h => hjne h.symm),
                getD_set_ne _ _ _ _ (fun h => hjpos h.symm)]
            rw [hgj, hgp]
            have hj0 : 0 < j := by omega
            have hu := pre1 j hj hj0 hjpos
            rw [getD_set_ne _ _ _ _ (fun h => hjpos h.symm)] at hu
            rw [hpj, getD_set_ne _ _ _ _ (fun h => hppne h.symm)] at hu
            exact eLt_neg_trans (hfin _ (getD_mem hj))
              (hfin _ (getD_mem hpplen)) (hfin _ (getD_mem (by omega))) hu hpp_edge
        exact ih (par pos) (heap.set pos (heap.getD (par pos) dE)) x
          (by omega) (by simpa using hpplen)
          (allFin_set hfin (hfin _ (getD_mem hpplen)) pos) hxfin hpre1 hpre2
      · rw [if_neg hlt]
        -- terminal case: place the item at the hole
        intro j hj hj0
        rw [List.length_set] at hj
        by_cases hjpos : j = pos
        · subst hjpos
          rw [getD_set_self _ _ _ hpos, getD_set_ne _ _ _ _ (by omega)]
          cases hc : eLt x (heap.getD (par j) dE) with
          | false => rfl
          | true => exact absurd hc hlt
        · exact pre1 j hj hj0 hjpos
    · rename_i hsp
      have hpos0 : pos = 0 := by omega
      subst hpos0
      intro j hj hj0
      rw [List.length_set] at hj
      exact pre1 j hj hj0 (by omega)

theorem getD_append_left (l1 l2 : List E) (j : ℕ) (h : j < l1.length) :
    (l1 ++ l2).getD j dE = l1.getD j dE := by
  rw [List.getD_eq_getElem _ _ (by simp only [List.length_append]; omega),
    List.getD_eq_getElem _ _ h]
  exact List.getElem_append_left ..

theorem set_getD_self (l : List E) (i : ℕ) (h : i < l.length) :
    l.set i (l.getD i dE) = l := by
  induction l generalizing i with
  | nil => simp at h
  | cons a t ih =>
    cases i with
    | zero => rfl
    | succ n =>
      show a :: t.set n (t.getD n dE) = a :: t
      rw [ih n (by simpa using h)]

/-- A `heappush` into a valid all-finite heap restores the invariant. -/
theorem heappush_isHeap {l : List E} {x : E} (hh : IsHeap l) (hfin : AllFin l)
    (hxfin : x.1.isFin = true) : IsHeap (heappush l x) := by
  rw [heappush]
  have hxl : (l ++ [x]).getD l.length dE = x := by
    rw [List.getD_eq_getElem _ _ (by simp)]
    simp
  have hset : (l ++ [x]).set l.length x = l ++ [x] := by
    have h0 := set_getD_self (l ++ [x]) l.length
      (by simp only [List.length_append, List.length_singleton]; omega)
    rwa [hxl] at h0
  apply siftdownAux_isHeap l.length l.length (l ++ [x]) x le_rfl (by simp)
  · intro e he
    rcases List.mem_append.1 he with h | h
    · exact hfin e h
    · rw [List.mem_singleton.1 h]; exact hxfin
  · exact hxfin
  · intro j hj hj0 hjne
    rw [List.length_append, List.length_singleton] at hj
    have hjl : j < l.length := by omega
    rw [hset, getD_append_left _ _ _ hjl,
      getD_append_left _ _ _ (by simp only [par_eq]; omega)]
    exact hh j hjl hj0
  · intro j hj hpj hp0
    exfalso
    rw [List.length_append, List.length_singleton] at hj
    simp only [par_eq] at hpj
    omega

/-- Main lemma for `_siftup`: walking the hole at `pos` down to a leaf and
bubbling `newitem` back up restores the invariant, provided every edge not
touching the hole respects the heap order and the hole's children are no
smaller than the hole's parent. -/
theorem siftupAux_isHeap :
    ∀ (fuel : ℕ) (heap : List E) (pos : ℕ) (x : E), heap.length - pos ≤ fuel →
    pos < heap.length → AllFin heap → x.1.isFin = true →
    (∀ j, j < heap.length → 0 < j → j ≠ pos → par j ≠ pos →
        eLt (heap.getD j dE) (heap.getD (par j) dE) = false) →
    (0 < pos → ∀ j, j < heap.length → par j = pos →
        eLt (heap.getD j dE) (heap.getD (par pos) dE) = false) →
    IsHeap (siftupAux fuel heap 0 pos x) := by
  intro fuel
  induction fuel with
  | zero =>
    intro heap pos x hle hpos hfin hxfin pre1 pre2
    omega
  | succ n ih =>
    intro heap pos x hle hpos hfin hxfin pre1 pre2
    simp only [siftupAux]
    split
    · rename_i hc1
      set cp := if 2 * pos + 2 < heap.length ∧
          ¬ eLt (heap.getD (2 * pos + 1) dE) (heap.getD (2 * pos + 2) dE) = true then
          2 * pos + 2 else 2 * pos + 1 with hcp
      have hcplen : cp < heap.length := by rw [hcp]; split <;> omega
      have hcpgt : pos < cp := by rw [hcp]; split <;> omega
      have hcpbound : cp ≤ 2 * pos + 2 := by rw [hcp]; split <;> omega
      have hparcp : par cp = pos := by
        simp only [par_eq]
        rw [hcp]; split <;> omega
      apply ih (heap.set pos (heap.getD cp dE)) cp x
        (by simp only [List.length_set]; omega)
        (by simpa using hcplen)
        (allFin_set hfin (hfin _ (getD_mem hcplen)) pos) hxfin
      · -- pre1 for the moved hole
        intro j hj hj0 hjne hpjne
        rw [List.length_set] at hj
        by_cases hjpos : j = pos
        · rw [hjpos]
          have hppos : par pos < pos := by simp only [par_eq]; omega
          rw [getD_set_self _ _ _ hpos, getD_set_ne _ _ _ _ (by omega)]
          have hpos0 : 0 < pos := by omega
          exact pre2 hpos0 cp hcplen hparcp
        · have hgj : (heap.set pos (heap.getD cp dE)).getD j dE = heap.getD j dE :=
            getD_set_ne _ _ _ _ (fun h => hjpos h.symm)
          by_cases hpj : par j = pos
          · -- j is the sibling of the chosen child
            have hgp : (heap.set pos (heap.getD cp dE)).getD (par j) dE
                = heap.getD cp dE := by
              rw [hpj, getD_set_self _ _ _ hpos]
            rw [hgj, hgp]
            have hjchild : j = 2 * pos + 1 ∨ j = 2 * pos + 2 := by
              simp only [par_eq] at hpj
              omega
            rw [hcp]
            split
            · rename_i hcond
              -- chosen child is 2*pos+2, so j = 2*pos+1
              have hj1 : j = 2 * pos + 1 := by
                rcases hjchild with h | h
                · exact h
                · exfalso; apply hjne; rw [h, hcp, if_pos hcond]
              rw [hj1]
              cases hcc : eLt (heap.getD (2 * pos + 1) dE) (heap.getD (2 * pos + 2) dE) with
              | false => rfl
              | true => exact absurd hcc (by rw [hcc] at hcond; simpa using hcond.2)
            · rename_i hcond
              -- chosen child is 2*pos+1, so j = 2*pos+2 (and it exists)
              have hj2 : j = 2 * pos + 2 := by
                rcases hjchild with h | h
                · exfalso; apply hjne; rw [h, hcp, if_neg hcond]
                · exact h
              have hlt12 : eLt (heap.getD (2 * pos + 1) dE) (heap.getD (2 * pos + 2) dE)
                  = true := by
                by_contra hx
                exact hcond ⟨by omega, hx⟩
              rw [hj2]
              exact eLt_asymm hlt12
          · -- an edge untouched by the move
            have hgp : (heap.set pos (heap.getD cp dE)).getD (par j) dE
                = heap.getD (par j) dE :=
              getD_set_ne _ _ _ _ (fun h => hpj h.symm)
            rw [hgj, hgp]
            exact pre1 j hj hj0 hjpos hpj
      · -- pre2 for the moved hole
        intro _hcp0 j hj hpj
        rw [List.length_set] at hj
        have hjgtcp : cp < j := by
          simp only [par_eq] at hpj
          omega
        have hgj : (heap.set pos (heap.getD cp dE)).getD j dE = heap.getD j dE :=
          getD_set_ne _ _ _ _ (by omega)
        have hgp : (heap.set pos (heap.getD cp dE)).getD (par cp) dE
            = heap.getD cp dE := by
          rw [hparcp, getD_set_self _ _ _ hpos]
        rw [hgj, hgp]
        have hpjne : par j ≠ pos := by rw [hpj]; omega
        rw [← hpj]
        exact pre1 j hj (by omega) (by omega) hpjne
    · rename_i hleaf
      -- leaf reached: place the item and bubble it up
      have hsetset : (heap.set pos x).set pos x = heap.set pos x := List.set_set ..
      apply siftdownAux_isHeap pos pos (heap.set pos x) x le_rfl (by simpa using hpos)
        (allFin_set hfin hxfin pos) hxfin
      · intro j hj hj0 hjne
        rw [List.length_set] at hj
        rw [hsetset]
        have hpjne : par j ≠ pos := by
          intro hpj
          simp only [par_eq] at hpj
          omega
        rw [getD_set_ne _ _ _ _ (fun h => hjne h.symm),
          getD_set_ne _ _ _ _ (fun h => hpjne h.symm)]
        exact pre1 j hj hj0 hjne hpjne
      · intro j hj hpj _hp0
        exfalso
        rw [List.length_set] at hj
        simp only [par_eq] at hpj
        omega

/-- Full specification of `heappop` on a valid all-finite nonempty heap:
it returns the root together with a valid heap holding the remaining
elements. -/
theorem heappop_spec {l : List E} (hne : l ≠ []) (hh : IsHeap l) (hfin : AllFin l) :
    ∃ h2, heappop l = some (l.getD 0 dE, h2) ∧ IsHeap h2 ∧
      (↑l : Multiset E) = l.getD 0 dE ::ₘ ↑h2 := by
  obtain ⟨init, y, rfl⟩ : ∃ init y, l = init ++ [y] :=
    ⟨l.dropLast, l.getLast hne, (List.dropLast_concat_getLast hne).symm⟩
  cases init with
  | nil =>
    refine ⟨[], rfl, ?_, ?_⟩
    · intro j hj hj0
      simp at hj
    · rfl
  | cons r t =>
    have hpop : heappop ((r :: t) ++ [y])
        = some (r, siftupAux (t.length + 1) (y :: t) 0 0 y) := by
      rw [heappop]
      rw [List.getLast?_concat, List.dropLast_concat]
    have hroot : ((r :: t) ++ [y]).getD 0 dE = r := rfl
    have hyfin : y.1.isFin = true := hfin y (by simp)
    have htfin : AllFin (y :: t) := by
      intro e he
      rcases List.mem_cons.1 he with h | h
      · rw [h]; exact hyfin
      · exact hfin e (by simp [h])
    have hidx : ∀ j, 0 < j → j < t.length + 1 →
        (y :: t).getD j dE = ((r :: t) ++ [y]).getD j dE := by
      intro j hj0 hjlen
      cases j with
      | zero => omega
      | succ m =>
        have h1 : (y :: t).getD (m + 1) dE = t.getD m dE := rfl
        have h2 : ((r :: t) ++ [y]).getD (m + 1) dE = (r :: t).getD (m + 1) dE :=
          getD_append_left _ _ _ (by simp; omega)
        have h3 : (r :: t).getD (m + 1) dE = t.getD m dE := rfl
        rw [h1, h2, h3]
    refine ⟨siftupAux (t.length + 1) (y :: t) 0 0 y, by rw [hpop, hroot], ?_, ?_⟩
    · apply siftupAux_isHeap (t.length + 1) (y :: t) 0 y (by simp) (by simp)
        htfin hyfin
      · intro j hj hj0 hjne hpjne
        simp only [List.length_cons] at hj
        have hparlt : par j < j := by simp only [par_eq]; omega
        have hparpos : 0 < par j := by omega
        rw [hidx j hj0 hj, hidx (par j) hparpos (by omega)]
        have hllen : j < ((r :: t) ++ [y]).length := by simp; omega
        exact hh j hllen hj0
      · intro h0
        exact absurd h0 (by omega)
    · have hms : (↑(siftupAux (t.length + 1) (y :: t) 0 0 y) : Multiset E) = ↑(y :: t) := by
        rw [ms_siftupAux _ _ _ _ _ (by simp)]
        have : (y :: t).set 0 y = y :: t := rfl
        rw [this]
      rw [hms, hroot]
      show (↑(r :: (t ++ [y])) : Multiset E) = r ::ₘ ↑(y :: t)
      show r ::ₘ (↑(t ++ [y]) : Multiset E) = r ::ₘ ↑(y :: t)
      congr 1
      show (↑t : Multiset E) + ↑[y] = ↑(y :: t)
      rw [add_comm]
      rfl

/-- In a valid all-finite heap the root is a minimum: no slot compares
strictly below slot `0`. -/
theorem isHeap_root_min {l : List E} (hh : IsHeap l) (hfin : AllFin l) :
    ∀ j, j < l.length → eLt (l.getD j dE) (l.getD 0 dE) = false := by
  intro j
  induction j using Nat.strong_induction_on with
  | _ j ih =>
    intro hj
    rcases Nat.eq_zero_or_pos j with h0 | h0
    · rw [h0]; exact eLt_irrefl _
    · have hedge := hh j hj h0
      have hparlt : par j < j := by simp only [par_eq]; omega
      have hihp := ih (par j) hparlt (by omega)
      exact eLt_neg_trans (hfin _ (getD_mem hj)) (hfin _ (getD_mem (by omega)))
        (hfin _ (getD_mem (by omega))) hedge hihp

/-- Membership version of root minimality. -/
theorem isHeap_root_min_mem {l : List E} (hh : IsHeap l) (hfin : AllFin l)
    {e : E} (he : e ∈ l) : eLt e (l.getD 0 dE) = false := by
  obtain ⟨i, hi, rfl⟩ := List.getElem_of_mem he
  rw [← List.getD_eq_getElem l dE hi]
  exact isHeap_root_min hh hfin i hi

/-! ### The checkpoint-retention logic of `run` (lines 159-195) -/

/-- Outcome of one per-epoch checkpoint step (lines 159-179): the updated
heap, the paths written by `torch.save`, the paths removed by `os.remove`,
the entry removed from the heap by `heappop` (if any), and whether the
step took the `pass` branch of line 174 (rejected without write). -/
structure OfferResult where
  heap : List E
  saved : List Path
  removed : List Path
  popped : Option E
  rejected : Bool
deriving DecidableEq

/-- Lines 159-179 of the source for one epoch: push `(-val_loss, path)`
(line 168); if the heap has grown beyond `keep_best` (line 171), pop
(line 172); if the popped path equals the just-pushed path, `pass`
(lines 173-174); otherwise `torch.save` the new checkpoint and `os.remove`
the popped path (lines 176-177); below capacity, just `torch.save`
(line 179). -/
def offer (K : ℕ) (heap : List E) (v : HVal) (p : Path) : OfferResult :=
  let x : E := (v.neg, p)
  let h1 := heappush heap x
  if K < h1.length then
    match heappop h1 with
    | some (m, h2) =>
      if m.2 = p then
        { heap := h2, saved := [], removed := [], popped := some m, rejected := true }
      else
        { heap := h2, saved := [p], removed := [m.2], popped := some m, rejected := false }
    | none =>
      -- unreachable: the pushed heap is nonempty
      { heap := h1, saved := [], removed := [], popped := none, rejected := false }
  else
    { heap := h1, saved := [p], removed := [], popped := none, rejected := false }

/-- A file-system side effect of the checkpoint logic. -/
inductive Event where
  | save : Path → Event
  | remove : Path → Event
deriving DecidableEq

/-- Accumulated state of the checkpoint logic across epochs: the heap,
the log of `torch.save`/`os.remove` calls, the entries ever popped off the
heap, and the per-offer rejected-without-write flags. -/
structure RunSt where
  heap : List E
  events : List Event
  dropped : List E
  outcomes : List Bool
deriving DecidableEq

def initSt : RunSt := ⟨[], [], [], []⟩

/-- Perform one offer and record its effects. -/
def doOffer (K : ℕ) (st : RunSt) (v : HVal) (p : Path) : RunSt :=
  let r := offer K st.heap v p
  { heap := r.heap
    events := st.events ++ r.saved.map Event.save ++ r.removed.map Event.remove
    dropped := st.dropped ++ r.popped.toList
    outcomes := st.outcomes ++ [r.rejected] }

/-- The store-level view of a run: the fold of the per-epoch checkpoint
steps (lines 159-179) over a list of offered (score, path) pairs. -/
def runOffers (K : ℕ) (offers : List (HVal × Path)) : RunSt :=
  offers.foldl (fun st o => doOffer K st o.1 o.2) initSt

/-- Decimal digits of `n`, least significant first, by fueled division. -/
def decDigitsAux : ℕ → ℕ → List ℕ
  | 0, _ => []
  | fuel + 1, n => if n = 0 then [] else n % 10 :: decDigitsAux fuel (n / 10)

/-- Character codes of the decimal representation of `n`. -/
def decRepr (n : ℕ) : List ℕ :=
  if n = 0 then [48] else ((decDigitsAux n n).reverse.map (· + 48))

/-- Character codes of `"{:04}".format(n)`: the decimal representation,
zero-padded on the left to at least four characters. -/
def pad4 (n : ℕ) : List ℕ :=
  List.replicate (4 - (decRepr n).length) 48 ++ decRepr n

/-- Character codes of `"chk-{:04}.pth.tar".format(epoch)` (lines 160-161,
183-184): `"chk-"` then the padded epoch number then `".pth.tar"`. -/
def chkPath (e : ℕ) : Path :=
  [99, 104, 107, 45] ++ pad4 e ++ [46, 112, 116, 104, 46, 116, 97, 114]

/-- One iteration of the epoch loop (lines 129-189) restricted to the
checkpoint logic: the offer step when the warm-up delay has passed
(`epoch_num + 1 >= save_delay`, line 159), then the unconditional
last-epoch save (lines 181-185).  This models runs with
`save_delay ≤ num_epochs`; for larger `save_delay` the source raises
`NameError` at line 185 (`checkpoint` was never assigned). -/
def runEpoch (K saveDelay numEpochs : ℕ) (st : RunSt) (e : ℕ) (v : HVal) : RunSt :=
  let st1 := if saveDelay ≤ e + 1 then doOffer K st v (chkPath e) else st
  if e + 1 = numEpochs then
    { st1 with events := st1.events ++ [Event.save (chkPath e)] }
  else st1

/-- The whole training loop's checkpoint behaviour, given the per-epoch
validation scores (`scores.length = num_epochs`). -/
def fullRun (K saveDelay : ℕ) (scores : List HVal) : RunSt :=
  scores.enum.foldl (fun st ev => runEpoch K saveDelay scores.length st ev.1 ev.2) initSt

/-- Error vocabulary of the end-of-run step.  `indexError` models the
untyped `IndexError` Python raises when evaluating `checkpoint_heap[0]` on
an empty list; `emptyStore` is the typed error the specification
postulates, which the source never produces. -/
inductive FinErr where
  | indexError : FinErr
  | emptyStore : FinErr
deriving DecidableEq

/-- Lines 191-195: `_, best_checkpoint_path = checkpoint_heap[0]`, then the
path is copied to `best_chk.pth.tar` and returned.  Indexing an empty heap
raises `IndexError`. -/
def finalizeRun (heap : List E) : Except FinErr Path :=
  match heap with
  | [] => .error .indexError
  | e :: _ => .ok e.2

/-- Lines 159-179 when `torch.save` raises: returns `some h` where `h` is
the heap state at the moment the exception propagates, or `none` when the
offer completes without ever calling `torch.save`.  The push (line 168)
and pop (line 172) precede both `torch.save` call sites (lines 176, 179),
and `os.remove` (line 177) is reached only after a successful save. -/
def offerSaveRaises (K : ℕ) (heap : List E) (v : HVal) (p : Path) : Option (List E) :=
  let x : E := (v.neg, p)
  let h1 := heappush heap x
  if K < h1.length then
    match heappop h1 with
    | some (m, h2) => if m.2 = p then none else some h2
    | none => none
  else some h1

/-! ### The specification's compare-before-materialise algorithm (§4.1)

These definitions follow the spec's words (for the refinement claim), not
the source: they are the algorithm the source is claimed to be equivalent
to. -/

/-- The spec's strict "worse-than" total order (§4.1 steps 3-4): primary
key score (higher = worse, i.e. smaller negated-score key = worse), `nan`
placed at the worst end, secondary key the handle. -/
def specWorseLt (a b : E) : Bool :=
  match a.1, b.1 with
  | .nan, .fin _ => true
  | .fin _, .nan => false
  | .nan, .nan => lexLt a.2 b.2
  | .fin _, .fin _ => eLt a b

/-- The worst entry of the spec store (`find-worst`): the minimum under
`specWorseLt`. -/
def specWorst : List E → Option E
  | [] => none
  | e :: t => some (t.foldl (fun w y => if specWorseLt y w then y else w) e)

structure SpecResult where
  entries : List E
  rejected : Bool
deriving DecidableEq

/-- §4.1 `offer`: below capacity always accept; at capacity compare the
new candidate against the current worst under the total order, reject
without write if it is no better, otherwise insert it and evict the
worst. -/
def specOffer (K : ℕ) (s : List E) (x : E) : SpecResult :=
  if s.length < K then
    { entries := x :: s, rejected := false }
  else
    match specWorst s with
    | none => { entries := s, rejected := true } -- unreachable for K > 0
    | some w =>
      if specWorseLt w x then
        { entries := x :: @List.erase E instBEqOfDecidableEq s w, rejected := false }
      else
        { entries := s, rejected := true }

/-- Paths of the retained entries. -/
def pathsOf (l : List E) : List Path := l.map Prod.snd

/-- The number of offers so far that were not rejected without write. -/
def acceptedCount (st : RunSt) : ℕ := (st.outcomes.filter (fun b => b = false)).length

/-- How often `torch.save` has been called on `q`. -/
def saveCount (st : RunSt) (q : Path) : ℕ := st.events.count (Event.save q)

/-- How often `os.remove` has been called on `q`. -/
def removeCount (st : RunSt) (q : Path) : ℕ := st.events.count (Event.remove q)

instance isHeapDecidable (l : List E) : Decidable (IsHeap l) := by
  unfold IsHeap; infer_instance

instance allFinDecidable (l : List E) : Decidable (AllFin l) := by
  unfold AllFin; infer_instance

/-! ### Characterisation of one offer step -/

theorem heappush_length_pos (heap : List E) (item : E) : heappush heap item ≠ [] := by
  intro hcon
  have := heappush_length heap item
  rw [hcon] at this
  simp at this

/-- `heappop` removes exactly one element (no ordering assumptions). -/
theorem heappop_length {l : List E} {m : E} {h2 : List E}
    (h : heappop l = some (m, h2)) : h2.length + 1 = l.length := by
  unfold heappop at h
  cases hgl : l.getLast? with
  | none => rw [hgl] at h; simp at h
  | some lastelt =>
    rw [hgl] at h
    have hne : l ≠ [] := by
      intro hcon; rw [hcon] at hgl; simp at hgl
    have hpos : 0 < l.length := List.length_pos.2 hne
    have hlen : l.dropLast.length = l.length - 1 := List.length_dropLast l
    cases hdl : l.dropLast with
    | nil =>
      rw [hdl] at h hlen
      simp only [List.length_nil] at hlen
      have heq := Option.some.inj h
      have h2nil : h2 = [] := congrArg Prod.snd heq.symm
      rw [h2nil]
      simp only [List.length_nil]
      omega
    | cons r t =>
      rw [hdl] at h hlen
      have heq := Option.some.inj h
      have h2eq : h2 = siftupAux (t.length + 1) (lastelt :: t) 0 0 lastelt :=
        congrArg Prod.snd heq.symm
      rw [h2eq, siftupAux_length]
      simp only [List.length_cons] at hlen ⊢
      omega

/-- `heappop` succeeds on any nonempty list. -/
theorem heappop_of_ne_nil {l : List E} (hne : l ≠ []) :
    ∃ m h2, heappop l = some (m, h2) := by
  unfold heappop
  cases hgl : l.getLast? with
  | none =>
    exfalso
    rw [List.getLast?_eq_getLast l hne] at hgl
    simp at hgl
  | some lastelt =>
    cases hdl : l.dropLast with
    | nil => exact ⟨lastelt, [], rfl⟩
    | cons r t => exact ⟨r, _, rfl⟩

/-- Below capacity an offer is a pure accept: push and save, no pop. -/
theorem offer_below {K : ℕ} {h : List E} {v : HVal} {p : Path} (hlt : h.length < K) :
    offer K h v p =
      ⟨heappush h (v.neg, p), [p], [], none, false⟩ := by
  unfold offer
  rw [if_neg (by rw [heappush_length]; omega)]

/-- At capacity an offer pushes then pops. -/
theorem offer_at_cap {K : ℕ} {h : List E} {v : HVal} {p : Path} {m : E} {h2 : List E}
    (hlen : K ≤ h.length)
    (hpop : heappop (heappush h (v.neg, p)) = some (m, h2)) :
    offer K h v p =
      if m.2 = p then ⟨h2, [], [], some m, true⟩
      else ⟨h2, [p], [m.2], some m, false⟩ := by
  unfold offer
  rw [if_pos (by rw [heappush_length]; omega), hpop]

/-- An offer that is rejected without write performs no `torch.save`
(and no `os.remove`). -/
theorem offer_rejected_no_write (K : ℕ) (h : List E) (v : HVal) (p : Path)
    (hrej : (offer K h v p).rejected = true) :
    (offer K h v p).saved = [] ∧ (offer K h v p).removed = [] := by
  by_cases hK : K ≤ h.length
  · obtain ⟨m, h2, hpop⟩ := heappop_of_ne_nil (heappush_length_pos h (v.neg, p))
    rw [offer_at_cap hK hpop] at hrej ⊢
    by_cases hmp : m.2 = p
    · rw [if_pos hmp]
      exact ⟨rfl, rfl⟩
    · rw [if_neg hmp] at hrej
      simp at hrej
  · rw [offer_below (by omega)] at hrej
    simp at hrej

/-- Length behaviour of one offer: below capacity the heap grows by one,
at (or above) capacity it keeps its size. -/
theorem offer_heap_length (K : ℕ) (h : List E) (v : HVal) (p : Path) :
    (offer K h v p).heap.length
      = if K ≤ h.length then h.length else h.length + 1 := by
  by_cases hKle : K ≤ h.length
  · obtain ⟨m, h2, hpop⟩ := heappop_of_ne_nil (heappush_length_pos h (v.neg, p))
    rw [offer_at_cap hKle hpop, if_pos hKle]
    have hl := heappop_length hpop
    rw [heappush_length] at hl
    by_cases hmp : m.2 = p
    · rw [if_pos hmp]; dsimp only; omega
    · rw [if_neg hmp]; dsimp only; omega
  · rw [offer_below (by omega), if_neg hKle]
    dsimp only
    exact heappush_length ..

/-- Below capacity an offer is never rejected. -/
theorem offer_below_not_rejected {K : ℕ} {h : List E} {v : HVal} {p : Path}
    (hlt : h.length < K) : (offer K h v p).rejected = false := by
  rw [offer_below hlt]

theorem acceptedCount_doOffer (K : ℕ) (st : RunSt) (v : HVal) (p : Path) :
    acceptedCount (doOffer K st v p)
      = acceptedCount st + (if (offer K st.heap v p).rejected = true then 0 else 1) := by
  unfold acceptedCount doOffer
  dsimp only
  rw [List.filter_append, List.length_append]
  cases hr : (offer K st.heap v p).rejected <;> simp [hr]

/-- Size invariant of the store: after any sequence of offers the heap
holds `min (number of accepted offers) K` entries.  This needs no
assumptions on scores or paths (not even finiteness). -/
theorem runOffers_size (K : ℕ) (offers : List (HVal × Path)) :
    (runOffers K offers).heap.length = min (acceptedCount (runOffers K offers)) K := by
  suffices key : ∀ (os : List (HVal × Path)) (st : RunSt),
      st.heap.length = min (acceptedCount st) K →
      (os.foldl (fun st o => doOffer K st o.1 o.2) st).heap.length
        = min (acceptedCount (os.foldl (fun st o => doOffer K st o.1 o.2) st)) K from
    key offers initSt (by simp [initSt, acceptedCount])
  intro os
  induction os with
  | nil => intro st hinv; exact hinv
  | cons o rest ih =>
    intro st hinv
    simp only [List.foldl_cons]
    apply ih
    rw [acceptedCount_doOffer]
    show (offer K st.heap o.1 o.2).heap.length = _
    rw [offer_heap_length]
    by_cases hKle : K ≤ st.heap.length
    · rw [if_pos hKle]
      have hi : (if (offer K st.heap o.1 o.2).rejected = true then 0 else 1) ≤ 1 := by
        split <;> omega
      omega
    · rw [if_neg hKle]
      rw [offer_below_not_rejected (by omega)]
      have hone : (if (false : Bool) = true then 0 else 1) = 1 := rfl
      rw [hone]
      omega

/-- Elements of the popped heap were in the pushed heap. -/
theorem mem_of_ms_cons {m : E} {l l2 : List E}
    (h : (↑l : Multiset E) = m ::ₘ ↑l2) {e : E} (he : e ∈ l2) : e ∈ l := by
  have hm : e ∈ (↑l : Multiset E) := by
    rw [h]
    exact Multiset.mem_cons_of_mem he
  exact hm

/-- The validation loss recorded in a heap entry (the entries store the
negated loss); `nan` entries map to a junk value, unused under `AllFin`. -/
def lossOf (e : E) : ℚ :=
  match e.1 with
  | .nan => 0
  | .fin q => -q

theorem neg_isFin (v : HVal) : v.neg.isFin = v.isFin := by
  cases v <;> rfl

/-- Root minimality in terms of losses: nothing retained has a loss above
the root entry's loss. -/
theorem lossOf_le_root {l : List E} (hh : IsHeap l) (hfin : AllFin l)
    {e : E} (he : e ∈ l) (hne : l ≠ []) : lossOf e ≤ lossOf (l.getD 0 dE) := by
  have hroot := isHeap_root_min_mem hh hfin he
  have hrfin : (l.getD 0 dE).1.isFin = true :=
    hfin _ (getD_mem (List.length_pos.2 hne))
  have hefin : e.1.isFin = true := hfin e he
  rcases hre : l.getD 0 dE with ⟨r1, pr⟩
  rw [hre] at hroot hrfin
  obtain ⟨e1, pe⟩ := e
  cases e1 with
  | nan => simp [HVal.isFin] at hefin
  | fin a =>
    cases r1 with
    | nan => simp [HVal.isFin] at hrfin
    | fin r =>
      rw [eLt_fin_fin] at hroot
      by_cases har : a = r
      · subst har
        simp [lossOf]
      · rw [if_neg har] at hroot
        have hnlt : ¬ a < r := by simpa using hroot
        show -a ≤ -r
        have hra : r < a := lt_of_le_of_ne (le_of_not_lt hnlt) (fun hq => har hq.symm)
        linarith

/-- Comprehensive case analysis of one offer on a valid all-finite heap:
either the offer is below capacity (pure push, saved, no pop) or it is at
capacity (push then pop of the minimum `m`, rejected exactly when `m`'s
path is the new path). -/
theorem offer_step {K : ℕ} {h : List E} {v : HVal} {p : Path}
    (hh : IsHeap h) (hf : AllFin h) (hvfin : v.isFin = true) :
    IsHeap (offer K h v p).heap ∧ AllFin (offer K h v p).heap ∧
    ((h.length < K ∧
        offer K h v p = ⟨heappush h (v.neg, p), [p], [], none, false⟩ ∧
        (↑(offer K h v p).heap : Multiset E) = ↑h + {(v.neg, p)}) ∨
      (K ≤ h.length ∧ ∃ m h2,
        heappop (heappush h (v.neg, p)) = some (m, h2) ∧
        (offer K h v p).heap = h2 ∧
        ((offer K h v p).rejected = true ↔ m.2 = p) ∧
        (m.2 = p → (offer K h v p).saved = [] ∧ (offer K h v p).removed = [] ∧
          (offer K h v p).popped = some m) ∧
        (m.2 ≠ p → (offer K h v p).saved = [p] ∧ (offer K h v p).removed = [m.2] ∧
          (offer K h v p).popped = some m) ∧
        (↑h + {(v.neg, p)} : Multiset E) = m ::ₘ ↑h2 ∧
        (∀ y, y ∈ (↑h + {(v.neg, p)} : Multiset E) → eLt y m = false))) := by
  have hxfin : ((v.neg, p) : E).1.isFin = true := by
    show v.neg.isFin = true
    rw [neg_isFin]; exact hvfin
  have hpushF : AllFin (heappush h (v.neg, p)) := by
    intro e he
    have hems : e ∈ (↑(heappush h (v.neg, p)) : Multiset E) := he
    rw [ms_heappush] at hems
    rcases Multiset.mem_add.1 hems with hq | hq
    · exact hf e hq
    · rw [Multiset.mem_singleton.1 hq]; exact hxfin
  have hpushH : IsHeap (heappush h (v.neg, p)) := heappush_isHeap hh hf hxfin
  by_cases hKle : K ≤ h.length
  · obtain ⟨h2x, hpop2, hh2, hms2⟩ :=
      heappop_spec (heappush_length_pos h (v.neg, p)) hpushH hpushF
    have hofr := offer_at_cap (v := v) hKle hpop2
    have hmsx : (↑h + {((v.neg, p) : E)} : Multiset E)
        = (heappush h (v.neg, p)).getD 0 dE ::ₘ ↑h2x := by
      rw [← ms_heappush]; exact hms2
    have hfin2 : AllFin h2x := fun e he => hpushF e (mem_of_ms_cons hms2 he)
    have hmin : ∀ y, y ∈ (↑h + {((v.neg, p) : E)} : Multiset E) →
        eLt y ((heappush h (v.neg, p)).getD 0 dE) = false := by
      intro y hy
      rw [← ms_heappush] at hy
      exact isHeap_root_min_mem hpushH hpushF hy
    by_cases hmp : ((heappush h (v.neg, p)).getD 0 dE).2 = p
    · rw [hofr, if_pos hmp]
      exact ⟨hh2, hfin2, Or.inr ⟨hKle, _, h2x, hpop2, rfl,
        Iff.intro (fun _ => hmp) (fun _ => rfl),
        fun _ => ⟨rfl, rfl, rfl⟩, fun hc => absurd hmp hc, hmsx, hmin⟩⟩
    · rw [hofr, if_neg hmp]
      exact ⟨hh2, hfin2, Or.inr ⟨hKle, _, h2x, hpop2, rfl,
        Iff.intro (fun hc => by simp at hc) (fun hc => absurd hc hmp),
        fun hc => absurd hc hmp, fun _ => ⟨rfl, rfl, rfl⟩, hmsx, hmin⟩⟩
  · rw [offer_below (by omega)]
    exact ⟨hpushH, hpushF, Or.inl ⟨by omega, rfl, ms_heappush h (v.neg, p)⟩⟩

/-- After any all-finite run the heap is a valid all-finite heap of size
at most `K`. -/
theorem runOffers_good (K : ℕ) (offers : List (HVal × Path))
    (hfin : ∀ o ∈ offers, o.1.isFin = true) :
    IsHeap (runOffers K offers).heap ∧ AllFin (runOffers K offers).heap := by
  suffices key : ∀ (os : List (HVal × Path)) (st : RunSt),
      (∀ o ∈ os, o.1.isFin = true) →
      IsHeap st.heap → AllFin st.heap →
      IsHeap ((os.foldl (fun st o => doOffer K st o.1 o.2) st).heap) ∧
      AllFin ((os.foldl (fun st o => doOffer K st o.1 o.2) st).heap) from
    key offers initSt hfin (by intro j hj hj0; simp [initSt] at hj)
      (by intro e he; simp [initSt] at he)
  intro os
  induction os with
  | nil => intro st _ h1 h2; exact ⟨h1, h2⟩
  | cons o rest ih =>
    intro st hos hh hf
    simp only [List.foldl_cons]
    obtain ⟨hH, hF, -⟩ := offer_step (K := K) (p := o.2) hh hf (hos o (by simp))
    exact ih _ (fun q hq => hos q (by simp [hq])) hH hF

/-! ### `nan` behaviour of the push/pop pair -/

theorem set_len_append (l : List E) (x : E) :
    (l ++ [x]).set l.length x = l ++ [x] := by
  have hxl : (l ++ [x]).getD l.length dE = x := by
    rw [List.getD_eq_getElem _ _ (by simp)]
    simp
  have h0 := set_getD_self (l ++ [x]) l.length
    (by simp only [List.length_append, List.length_singleton]; omega)
  rwa [hxl] at h0

/-- A tuple whose first slot is `nan` compares below nothing. -/
theorem eLt_nan_fst (p : Path) (y : E) : eLt (HVal.nan, p) y = false := by
  unfold eLt
  have h1 : HVal.eqb HVal.nan y.1 = false := by cases y.1 <;> rfl
  have h2 : HVal.ltb HVal.nan y.1 = false := by cases y.1 <;> rfl
  rw [h1, h2]
  simp

/-- Pushing a `nan`-scored tuple just appends it: every comparison in the
sift returns `False`, so it stays in the final array slot. -/
theorem heappush_nan (h : List E) (p : Path) :
    heappush h (HVal.nan, p) = h ++ [(HVal.nan, p)] := by
  cases h with
  | nil => rfl
  | cons a t =>
    show siftdownAux (a :: t).length ((a :: t) ++ [(HVal.nan, p)]) 0
      (a :: t).length (HVal.nan, p) = _
    simp only [List.length_cons, siftdownAux]
    rw [if_pos (by omega : 0 < t.length + 1)]
    rw [eLt_nan_fst]
    rw [if_neg (by simp)]
    exact set_len_append (a :: t) (HVal.nan, p)

/-- `heappop` on a concatenation with at least two elements: the last slot
is popped off the array and the old root is returned. -/
theorem heappop_concat (r : E) (t : List E) (z : E) :
    heappop ((r :: t) ++ [z]) = some (r, siftupAux (t.length + 1) (z :: t) 0 0 z) := by
  rw [heappop]
  rw [List.getLast?_concat, List.dropLast_concat]

/-! ### The claims -/

/-- C2: for every sequence of offers against a store with capacity
`K > 0`, after each completed offer the heap retains at most `K` entries,
and exactly `min (number of accepted offers) K`, where an offer counts as
accepted iff it was not rejected without write.  (The statement quantifies
over every offer list, hence over every prefix of any run.) -/
theorem C2_bounded_size (K : ℕ) (_hK : 0 < K) (offers : List (HVal × Path)) :
    (runOffers K offers).heap.length ≤ K ∧
    (runOffers K offers).heap.length
      = min (acceptedCount (runOffers K offers)) K := by
  refine ⟨?_, runOffers_size K offers⟩
  rw [runOffers_size K offers]
  omega

/-- Witness for C2 at capacity 1 with scores 2, 1, 3: two accepted offers,
one entry retained. -/
theorem C2_bounded_size_witness :
    0 < 1 ∧
    ((runOffers 1 [(HVal.fin 2, chkPath 0), (HVal.fin 1, chkPath 1),
        (HVal.fin 3, chkPath 2)]).heap.length ≤ 1 ∧
      (runOffers 1 [(HVal.fin 2, chkPath 0), (HVal.fin 1, chkPath 1),
        (HVal.fin 3, chkPath 2)]).heap.length
        = min (acceptedCount (runOffers 1 [(HVal.fin 2, chkPath 0),
            (HVal.fin 1, chkPath 1), (HVal.fin 3, chkPath 2)])) 1) :=
  ⟨by decide, C2_bounded_size 1 (by decide) _⟩

/-- C1: in any all-finite run whose final heap retains more than one entry
with pairwise distinct scores, the end-of-run step (lines 191-195) returns
the handle stored at `checkpoint_heap[0]`, and that entry has the *worst*
(maximum) validation loss among the retained entries; a retained entry with
a strictly smaller loss exists, so the returned handle is not the true
minimum-loss entry. -/
theorem C1_finalize_returns_worst (K : ℕ) (offers : List (HVal × Path))
    (hfin : ∀ o ∈ offers, o.1.isFin = true)
    (hlen : 1 < (runOffers K offers).heap.length)
    (hdis : ((runOffers K offers).heap.map lossOf).Nodup) :
    finalizeRun (runOffers K offers).heap
      = Except.ok (((runOffers K offers).heap.getD 0 dE).2) ∧
    (∀ e ∈ (runOffers K offers).heap,
      lossOf e ≤ lossOf ((runOffers K offers).heap.getD 0 dE)) ∧
    (∃ e ∈ (runOffers K offers).heap,
      lossOf e < lossOf ((runOffers K offers).heap.getD 0 dE)) := by
  obtain ⟨hH, hF⟩ := runOffers_good K offers hfin
  set l := (runOffers K offers).heap with hl
  have hne : l ≠ [] := by
    intro hc; rw [hc] at hlen; simp at hlen
  obtain ⟨e0, l1, hlat⟩ := List.exists_cons_of_ne_nil hne
  obtain ⟨e1, l2, hl1⟩ := List.exists_cons_of_ne_nil
    (show l1 ≠ [] by intro hc; rw [hlat, hc] at hlen; simp at hlen)
  have hroot0 : l.getD 0 dE = e0 := by rw [hlat]; rfl
  refine ⟨?_, ?_, ?_⟩
  · rw [hlat]
    rfl
  · intro e he
    exact lossOf_le_root hH hF he hne
  · have hmem1 : e1 ∈ l := by rw [hlat, hl1]; simp
    have hle1 : lossOf e1 ≤ lossOf (l.getD 0 dE) := lossOf_le_root hH hF hmem1 hne
    have hneq : lossOf e1 ≠ lossOf (l.getD 0 dE) := by
      rw [hroot0]
      intro hq
      rw [hlat, hl1] at hdis
      simp only [List.map_cons, List.nodup_cons, List.mem_cons] at hdis
      exact hdis.1 (Or.inl hq.symm)
    exact ⟨e1, hmem1, lt_of_le_of_ne hle1 hneq⟩

/-- Witness for C1: scenario-A run (capacity 2, scores 5, 3, 4) retains
losses 3 and 4; the end-of-run step returns the loss-4 checkpoint. -/
theorem C1_finalize_returns_worst_witness :
    ((∀ o ∈ ([(HVal.fin 5, chkPath 0), (HVal.fin 3, chkPath 1),
        (HVal.fin 4, chkPath 2)] : List (HVal × Path)), o.1.isFin = true) ∧
      1 < (runOffers 2 [(HVal.fin 5, chkPath 0), (HVal.fin 3, chkPath 1),
        (HVal.fin 4, chkPath 2)]).heap.length ∧
      ((runOffers 2 [(HVal.fin 5, chkPath 0), (HVal.fin 3, chkPath 1),
        (HVal.fin 4, chkPath 2)]).heap.map lossOf).Nodup) ∧
    (finalizeRun (runOffers 2 [(HVal.fin 5, chkPath 0), (HVal.fin 3, chkPath 1),
        (HVal.fin 4, chkPath 2)]).heap
      = Except.ok (((runOffers 2 [(HVal.fin 5, chkPath 0), (HVal.fin 3, chkPath 1),
        (HVal.fin 4, chkPath 2)]).heap.getD 0 dE).2) ∧
      (∀ e ∈ (runOffers 2 [(HVal.fin 5, chkPath 0), (HVal.fin 3, chkPath 1),
        (HVal.fin 4, chkPath 2)]).heap,
        lossOf e ≤ lossOf ((runOffers 2 [(HVal.fin 5, chkPath 0),
          (HVal.fin 3, chkPath 1), (HVal.fin 4, chkPath 2)]).heap.getD 0 dE)) ∧
      (∃ e ∈ (runOffers 2 [(HVal.fin 5, chkPath 0), (HVal.fin 3, chkPath 1),
        (HVal.fin 4, chkPath 2)]).heap,
        lossOf e < lossOf ((runOffers 2 [(HVal.fin 5, chkPath 0),
          (HVal.fin 3, chkPath 1), (HVal.fin 4, chkPath 2)]).heap.getD 0 dE))) :=
  ⟨⟨by decide, by decide, by decide⟩,
    C1_finalize_returns_worst 2 _ (by decide) (by decide) (by decide)⟩

/-- C4: an offer that is rejected without write performs no `torch.save`
during that offer; and in the scenario-B run (capacity 1, scores 2, 1, 3)
the first two offers are accepted (the second evicting the loss-2 entry)
and the third is rejected without write, retaining exactly the loss-1
entry. -/
theorem C4_lazy_write :
    (∀ (K : ℕ) (h : List E) (v : HVal) (p : Path),
      (offer K h v p).rejected = true → (offer K h v p).saved = []) ∧
    ((runOffers 1 [(HVal.fin 2, chkPath 0), (HVal.fin 1, chkPath 1),
        (HVal.fin 3, chkPath 2)]).outcomes = [false, false, true] ∧
      (runOffers 1 [(HVal.fin 2, chkPath 0), (HVal.fin 1, chkPath 1),
        (HVal.fin 3, chkPath 2)]).heap = [(HVal.fin (-1), chkPath 1)] ∧
      (runOffers 1 [(HVal.fin 2, chkPath 0), (HVal.fin 1, chkPath 1),
        (HVal.fin 3, chkPath 2)]).events
        = [Event.save (chkPath 0), Event.save (chkPath 1),
            Event.remove (chkPath 0)]) := by
  refine ⟨?_, by decide, by decide, by decide⟩
  intro K h v p hrej
  exact (offer_rejected_no_write K h v p hrej).1

/-- Witness for C4: the rejected third offer of scenario B writes
nothing. -/
theorem C4_lazy_write_witness :
    (offer 1 [(HVal.fin (-1), chkPath 1)] (HVal.fin 3) (chkPath 2)).rejected = true ∧
    (offer 1 [(HVal.fin (-1), chkPath 1)] (HVal.fin 3) (chkPath 2)).saved = [] :=
  ⟨by decide, C4_lazy_write.1 1 [(HVal.fin (-1), chkPath 1)] (HVal.fin 3)
    (chkPath 2) (by decide)⟩

/-- C8 counterexample: with zero retained entries the end-of-run step
fails with Python's untyped `IndexError` from `checkpoint_heap[0]`, not
with a typed `EmptyStore` error. -/
theorem C8_counterexample :
    finalizeRun ((runOffers 1 []).heap) = Except.error FinErr.indexError ∧
    ¬ (finalizeRun ((runOffers 1 []).heap) = Except.error FinErr.emptyStore) := by
  refine ⟨rfl, ?_⟩
  intro hc
  have hr : finalizeRun ((runOffers 1 []).heap) = Except.error FinErr.indexError := rfl
  rw [hr] at hc
  simp at hc

/-- C8 (amended): a run in which no offer was ever accepted retains
nothing, and the end-of-run step then fails with the untyped `IndexError`
raised by `checkpoint_heap[0]` (the source has no typed `EmptyStore`
error). -/
theorem C8_amended_empty_store (K : ℕ) (offers : List (HVal × Path))
    (hacc : acceptedCount (runOffers K offers) = 0) :
    finalizeRun (runOffers K offers).heap = Except.error FinErr.indexError := by
  have hs := runOffers_size K offers
  rw [hacc] at hs
  simp only [Nat.zero_min] at hs
  have hnil : (runOffers K offers).heap = [] := List.length_eq_zero.1 hs
  rw [hnil]
  rfl

/-- Witness for the amended C8: the empty run. -/
theorem C8_amended_empty_store_witness :
    acceptedCount (runOffers 1 []) = 0 ∧
    finalizeRun (runOffers 1 []).heap = Except.error FinErr.indexError :=
  ⟨by decide, C8_amended_empty_store 1 [] (by decide)⟩

/-- C5 counterexample: offering a `nan` score to a full store of one
finite entry is *accepted*: the finite entry is evicted (its file removed)
and the `nan` checkpoint is written and retained, instead of the offer
being rejected without write. -/
theorem C5_counterexample :
    ¬ ((offer 1 [(HVal.fin (-2), chkPath 0)] HVal.nan (chkPath 1)).rejected = true) ∧
    (offer 1 [(HVal.fin (-2), chkPath 0)] HVal.nan (chkPath 1)).saved = [chkPath 1] ∧
    (offer 1 [(HVal.fin (-2), chkPath 0)] HVal.nan (chkPath 1)).removed = [chkPath 0] ∧
    (offer 1 [(HVal.fin (-2), chkPath 0)] HVal.nan (chkPath 1)).heap
      = [(HVal.nan, chkPath 1)] := by
  refine ⟨by decide, by decide, by decide, by decide⟩

/-- C5 (amended): offering a `nan` score while the store is at capacity
never takes the rejection branch.  All heap comparisons against the `nan`
tuple return `False`, so `heappush` leaves it in the final array slot,
and `heappop` then pops that slot and returns the root: the offer is
treated as accepted, the root entry (finite, when the store was
all-finite) is evicted and its file removed, and the `nan` checkpoint is
written and retained. -/
theorem C5_amended_nan_accepted (K : ℕ) (h : List E) (p : Path)
    (hK : 0 < K) (hlen : h.length = K)
    (hfresh : ∀ q ∈ pathsOf h, q ≠ p) :
    (offer K h HVal.nan p).rejected = false ∧
    (offer K h HVal.nan p).saved = [p] ∧
    (offer K h HVal.nan p).removed = [(h.getD 0 dE).2] ∧
    ((HVal.nan, p) : E) ∈ (offer K h HVal.nan p).heap := by
  cases h with
  | nil => rw [List.length_nil] at hlen; omega
  | cons r t =>
    have hpush : heappush (r :: t) ((HVal.nan : HVal).neg, p) = (r :: t) ++ [(HVal.nan, p)] :=
      heappush_nan (r :: t) p
    have hpop : heappop (heappush (r :: t) ((HVal.nan : HVal).neg, p))
        = some (r, siftupAux (t.length + 1) ((HVal.nan, p) :: t) 0 0 (HVal.nan, p)) := by
      rw [hpush]
      exact heappop_concat r t (HVal.nan, p)
    have hKle : K ≤ (r :: t).length := le_of_eq hlen.symm
    have hofr := offer_at_cap (v := HVal.nan) hKle hpop
    have hrp : r.2 ≠ p := hfresh r.2 (by simp [pathsOf])
    rw [hofr, if_neg hrp]
    refine ⟨rfl, rfl, rfl, ?_⟩
    show ((HVal.nan, p) : E) ∈ siftupAux (t.length + 1) ((HVal.nan, p) :: t) 0 0 (HVal.nan, p)
    have hms : (↑(siftupAux (t.length + 1) ((HVal.nan, p) :: t) 0 0 (HVal.nan, p)) : Multiset E)
        = ↑(((HVal.nan, p) : E) :: t) := by
      rw [ms_siftupAux _ _ _ _ _ (by simp)]
      rfl
    have hmem : ((HVal.nan, p) : E) ∈
        (↑(siftupAux (t.length + 1) ((HVal.nan, p) :: t) 0 0 (HVal.nan, p)) : Multiset E) := by
      rw [hms]
      simp
    exact hmem

/-- Witness for the amended C5: the counterexample state. -/
theorem C5_amended_nan_accepted_witness :
    (0 < 1 ∧ ([((HVal.fin (-2) : HVal), chkPath 0)] : List E).length = 1 ∧
      (∀ q ∈ pathsOf [((HVal.fin (-2) : HVal), chkPath 0)], q ≠ chkPath 1)) ∧
    ((offer 1 [((HVal.fin (-2) : HVal), chkPath 0)] HVal.nan (chkPath 1)).rejected = false ∧
      (offer 1 [((HVal.fin (-2) : HVal), chkPath 0)] HVal.nan (chkPath 1)).saved = [chkPath 1] ∧
      (offer 1 [((HVal.fin (-2) : HVal), chkPath 0)] HVal.nan (chkPath 1)).removed
        = [(([((HVal.fin (-2) : HVal), chkPath 0)] : List E).getD 0 dE).2] ∧
      ((HVal.nan, chkPath 1) : E)
        ∈ (offer 1 [((HVal.fin (-2) : HVal), chkPath 0)] HVal.nan (chkPath 1)).heap) :=
  ⟨⟨by decide, by decide, by decide⟩,
    C5_amended_nan_accepted 1 [((HVal.fin (-2) : HVal), chkPath 0)] (chkPath 1)
      (by decide) (by decide) (by decide)⟩

/-- `offerSaveRaises` below capacity: the push is committed before the
failing save. -/
theorem offerSaveRaises_below {K : ℕ} {h : List E} {v : HVal} {p : Path}
    (hlt : h.length < K) :
    offerSaveRaises K h v p = some (heappush h (v.neg, p)) := by
  unfold offerSaveRaises
  rw [if_neg (by rw [heappush_length]; omega)]

/-- `offerSaveRaises` at capacity: the push and pop are committed before
the failing save; a rejected offer never reaches a save. -/
theorem offerSaveRaises_at_cap {K : ℕ} {h : List E} {v : HVal} {p : Path} {m : E}
    {h2 : List E} (hlen : K ≤ h.length)
    (hpop : heappop (heappush h (v.neg, p)) = some (m, h2)) :
    offerSaveRaises K h v p = if m.2 = p then none else some h2 := by
  unfold offerSaveRaises
  rw [if_pos (by rw [heappush_length]; omega), hpop]

/-- C6 counterexample: with capacity 1 and a retained loss-2 entry, an
offer of loss 1 whose `torch.save` raises leaves the heap already mutated
(the loss-2 entry removed, the unwritten new entry inserted), not
unchanged as the claim requires. -/
theorem C6_counterexample :
    offerSaveRaises 1 [(HVal.fin (-2), chkPath 0)] (HVal.fin 1) (chkPath 1)
      = some [(HVal.fin (-1), chkPath 1)] ∧
    ([(HVal.fin (-1), chkPath 1)] : List E) ≠ [(HVal.fin (-2), chkPath 0)] := by
  exact ⟨by decide, by decide⟩

/-- C6 (amended): when `torch.save` (the materialisation) raises, the
exception propagates, but the store has already been mutated: the push
(line 168) and, under eviction pressure, the pop (line 172) precede the
save, so the heap at the moment the exception escapes equals the heap of
the completed offer — the new entry is recorded (without its file) and the
popped entry is already gone from the heap while `os.remove` on its file
is never reached.  Only a rejected-without-write offer, which never calls
`torch.save`, is immune. -/
theorem C6_failed_save_mutates (K : ℕ) (h : List E) (v : HVal) (p : Path)
    (hh : IsHeap h) (hf : AllFin h) (hvfin : v.isFin = true) :
    ((offer K h v p).rejected = true → offerSaveRaises K h v p = none) ∧
    ((offer K h v p).rejected = false →
      offerSaveRaises K h v p = some ((offer K h v p).heap) ∧
      ((v.neg, p) : E) ∈ (offer K h v p).heap) := by
  obtain ⟨hH, hF, hcases⟩ := offer_step (K := K) (p := p) hh hf hvfin
  rcases hcases with ⟨hlt, hofr, hms⟩ | ⟨hKle, m, h2, hpop, hheap, hrej, hif, hnif, hms, hmin⟩
  · constructor
    · intro hr
      rw [hofr] at hr
      simp at hr
    · intro _
      rw [hofr, offerSaveRaises_below hlt]
      constructor
      · rfl
      · show ((v.neg, p) : E) ∈ heappush h (v.neg, p)
        have hmm : ((v.neg, p) : E) ∈ (↑(heappush h (v.neg, p)) : Multiset E) := by
          rw [ms_heappush]
          simp
        exact hmm
  · have hsr := offerSaveRaises_at_cap hKle hpop
    constructor
    · intro hr
      rw [hsr, if_pos (hrej.1 hr)]
    · intro hr
      have hmp : m.2 ≠ p := by
        intro hc
        rw [hrej.2 hc] at hr
        simp at hr
      rw [hheap, hsr, if_neg hmp]
      refine ⟨rfl, ?_⟩
      have hxmem : ((v.neg, p) : E) ∈ (↑h + {((v.neg, p) : E)} : Multiset E) := by simp
      rw [hms] at hxmem
      rcases Multiset.mem_cons.1 hxmem with hq | hq
      · exact absurd (congrArg Prod.snd hq).symm hmp
      · exact hq

/-- Witness for the amended C6: the counterexample state, where the offer
is accepted and the failing save leaves the mutated heap behind. -/
theorem C6_failed_save_mutates_witness :
    ((offer 1 [(HVal.fin (-2), chkPath 0)] (HVal.fin 1) (chkPath 1)).rejected = false) ∧
    (offerSaveRaises 1 [(HVal.fin (-2), chkPath 0)] (HVal.fin 1) (chkPath 1)
      = some ((offer 1 [(HVal.fin (-2), chkPath 0)] (HVal.fin 1) (chkPath 1)).heap) ∧
    ((HVal.fin 1 : HVal).neg, chkPath 1)
      ∈ (offer 1 [(HVal.fin (-2), chkPath 0)] (HVal.fin 1) (chkPath 1)).heap) :=
  ⟨by decide,
    (C6_failed_save_mutates 1 [(HVal.fin (-2), chkPath 0)] (HVal.fin 1) (chkPath 1)
      (by decide) (by decide) (by decide)).2 (by decide)⟩

/-! ### Event counting and the master run invariant -/

theorem count_save_map_save (l : List Path) (q : Path) :
    (l.map Event.save).count (Event.save q) = l.count q := by
  induction l with
  | nil => rfl
  | cons a t ih =>
    simp only [List.map_cons, List.count_cons, ih, beq_iff_eq, Event.save.injEq]

theorem count_save_map_remove (l : List Path) (q : Path) :
    (l.map Event.remove).count (Event.save q) = 0 := by
  induction l with
  | nil => rfl
  | cons a t ih =>
    simp only [List.map_cons, List.count_cons, ih]
    simp

theorem count_remove_map_save (l : List Path) (q : Path) :
    (l.map Event.save).count (Event.remove q) = 0 := by
  induction l with
  | nil => rfl
  | cons a t ih =>
    simp only [List.map_cons, List.count_cons, ih]
    simp

theorem count_remove_map_remove (l : List Path) (q : Path) :
    (l.map Event.remove).count (Event.remove q) = l.count q := by
  induction l with
  | nil => rfl
  | cons a t ih =>
    simp only [List.map_cons, List.count_cons, ih, beq_iff_eq, Event.remove.injEq]

theorem saveCount_doOffer (K : ℕ) (st : RunSt) (v : HVal) (p q : Path) :
    saveCount (doOffer K st v p) q
      = saveCount st q + (offer K st.heap v p).saved.count q := by
  show (st.events ++ (offer K st.heap v p).saved.map Event.save
      ++ (offer K st.heap v p).removed.map Event.remove).count (Event.save q) = _
  rw [List.count_append, List.count_append, count_save_map_save, count_save_map_remove]
  unfold saveCount
  omega

theorem removeCount_doOffer (K : ℕ) (st : RunSt) (v : HVal) (p q : Path) :
    removeCount (doOffer K st v p) q
      = removeCount st q + (offer K st.heap v p).removed.count q := by
  show (st.events ++ (offer K st.heap v p).saved.map Event.save
      ++ (offer K st.heap v p).removed.map Event.remove).count (Event.remove q) = _
  rw [List.count_append, List.count_append, count_remove_map_save, count_remove_map_remove]
  unfold removeCount
  omega

theorem doOffer_heap (K : ℕ) (st : RunSt) (v : HVal) (p : Path) :
    (doOffer K st v p).heap = (offer K st.heap v p).heap := rfl

theorem doOffer_dropped (K : ℕ) (st : RunSt) (v : HVal) (p : Path) :
    (doOffer K st v p).dropped = st.dropped ++ (offer K st.heap v p).popped.toList := rfl

/-- The reachable-state invariant of an all-finite, duplicate-free run:
a valid bounded heap plus the facts the claims need about evicted entries
and about the `torch.save`/`os.remove` call counts. -/
structure RunInv (K : ℕ) (st : RunSt) : Prop where
  isHeap : IsHeap st.heap
  allFin : AllFin st.heap
  bounded : st.heap.length ≤ K
  nodupPaths : (pathsOf st.heap).Nodup
  atCap : st.dropped ≠ [] → st.heap.length = K
  dropLe : ∀ e ∈ st.dropped, ∀ r ∈ st.heap, eLt r e = false
  dropFin : ∀ e ∈ st.dropped, e.1.isFin = true
  savedRet : ∀ q ∈ pathsOf st.heap, saveCount st q = 1 ∧ removeCount st q = 0
  savedGone : ∀ q : Path, q ∉ pathsOf st.heap →
    saveCount st q = removeCount st q ∧ removeCount st q ≤ 1

/-- The offered paths of `os` are unseen by `st`. -/
def FreshFor (st : RunSt) (os : List (HVal × Path)) : Prop :=
  ∀ o ∈ os, o.2 ∉ pathsOf st.heap ∧ saveCount st o.2 = 0 ∧ removeCount st o.2 = 0

theorem mem_pathsOf {e : E} {l : List E} (he : e ∈ l) : e.2 ∈ pathsOf l :=
  List.mem_map_of_mem Prod.snd he

theorem count_singleton_self (a : Path) : List.count a [a] = 1 := by
  simp

theorem count_singleton_ne {a b : Path} (h : b ≠ a) : List.count b [a] = 0 := by
  simp only [List.count_cons, List.count_nil, beq_iff_eq]
  rw [if_neg (fun hc => h hc.symm)]

theorem perm_push_pop {h : List E} {x m : E} {h2 : List E}
    (hms : (↑h + {x} : Multiset E) = m ::ₘ ↑h2) :
    (h ++ [x]).Perm (m :: h2) := by
  apply Multiset.coe_eq_coe.1
  have e1 : (↑(h ++ [x]) : Multiset E) = ↑h + {x} := by
    rw [← Multiset.coe_add]
    rfl
  rw [e1, hms]
  exact Multiset.cons_coe m h2

/-- One `doOffer` step preserves the run invariant under a fresh,
finite-scored offer; every other unseen path stays unseen and keeps its
`torch.save` / `os.remove` call counts. -/
theorem doOffer_inv {K : ℕ} {st : RunSt} (inv : RunInv K st)
    {v : HVal} {p : Path} (hvfin : v.isFin = true)
    (hfresh : p ∉ pathsOf st.heap) (hsc : saveCount st p = 0)
    (hrc : removeCount st p = 0) :
    RunInv K (doOffer K st v p) ∧
    ∀ q : Path, q ∉ pathsOf st.heap → q ≠ p →
      q ∉ pathsOf (doOffer K st v p).heap ∧
      saveCount (doOffer K st v p) q = saveCount st q ∧
      removeCount (doOffer K st v p) q = removeCount st q := by
  obtain ⟨hH, hF, hstep⟩ := offer_step (K := K) (p := p) inv.isHeap inv.allFin hvfin
  have hx : ((v.neg, p) : E).1.isFin = true := by
    show v.neg.isFin = true
    rw [neg_isFin]
    exact hvfin
  rcases hstep with ⟨hlt, hofr, hms⟩ | ⟨hKle, m, h2, hpop, hheap, hrej, hifp, hifn, hms, hmin⟩
  · -- below capacity: pure append of the new entry
    have hsaved : (offer K st.heap v p).saved = [p] := by rw [hofr]
    have hremoved : (offer K st.heap v p).removed = [] := by rw [hofr]
    have hpopped : (offer K st.heap v p).popped = none := by rw [hofr]
    have hlenh : (offer K st.heap v p).heap.length = st.heap.length + 1 := by
      rw [hofr]
      exact heappush_length st.heap (v.neg, p)
    have hperm : ((offer K st.heap v p).heap).Perm (st.heap ++ [(v.neg, p)]) := by
      apply Multiset.coe_eq_coe.1
      rw [hms, ← Multiset.coe_add]
      rfl
    have hpp : (pathsOf (offer K st.heap v p).heap).Perm (pathsOf st.heap ++ [p]) := by
      have hmp2 := hperm.map Prod.snd
      simpa [pathsOf] using hmp2
    have hmemiff : ∀ q : Path,
        q ∈ pathsOf (offer K st.heap v p).heap ↔ q ∈ pathsOf st.heap ∨ q = p := by
      intro q
      rw [hpp.mem_iff]
      simp
    have hsc2 : ∀ q, saveCount (doOffer K st v p) q
        = saveCount st q + List.count q [p] := by
      intro q
      rw [saveCount_doOffer, hsaved]
    have hrc2 : ∀ q, removeCount (doOffer K st v p) q = removeCount st q := by
      intro q
      rw [removeCount_doOffer, hremoved]
      rfl
    have hdrop : (doOffer K st v p).dropped = st.dropped := by
      rw [doOffer_dropped, hpopped]
      simp
    refine ⟨⟨hH, hF, ?_, ?_, ?_, ?_, ?_, ?_, ?_⟩, ?_⟩
    · show (offer K st.heap v p).heap.length ≤ K
      omega
    · show (pathsOf (offer K st.heap v p).heap).Nodup
      refine hpp.nodup_iff.2 (List.Nodup.append inv.nodupPaths (List.nodup_singleton p) ?_)
      intro a ha hb
      rw [List.mem_singleton] at hb
      subst hb
      exact hfresh ha
    · intro hne
      rw [hdrop] at hne
      exact absurd (inv.atCap hne) (by omega)
    · intro e he r hr
      rw [hdrop] at he
      exact absurd (inv.atCap (List.ne_nil_of_mem he)) (by omega)
    · intro e he
      rw [hdrop] at he
      exact inv.dropFin e he
    · intro q hq
      rcases (hmemiff q).1 hq with hqh | hqp
      · have hqp : q ≠ p := fun hc => hfresh (hc ▸ hqh)
        obtain ⟨hs1, hr1⟩ := inv.savedRet q hqh
        rw [hsc2 q, hrc2 q, hs1, hr1, count_singleton_ne hqp]
        exact ⟨rfl, rfl⟩
      · subst hqp
        rw [hsc2 q, hrc2 q, hsc, hrc, count_singleton_self]
        exact ⟨rfl, rfl⟩
    · intro q hq
      have hqh : q ∉ pathsOf st.heap := fun hc => hq ((hmemiff q).2 (Or.inl hc))
      have hqp : q ≠ p := fun hc => hq ((hmemiff q).2 (Or.inr hc))
      obtain ⟨hg1, hg2⟩ := inv.savedGone q hqh
      rw [hsc2 q, hrc2 q, count_singleton_ne hqp]
      omega
    · intro q hqh hqp
      refine ⟨fun hc => ?_, ?_, hrc2 q⟩
      · rcases (hmemiff q).1 hc with h1 | h1
        · exact hqh h1
        · exact hqp h1
      · rw [hsc2 q, count_singleton_ne hqp]
        omega
  · -- at capacity: push then pop
    have hdh : (doOffer K st v p).heap = h2 := hheap
    have hlen2 : h2.length + 1 = st.heap.length + 1 := by
      have h0 := heappop_length hpop
      rw [heappush_length] at h0
      omega
    have hlenK : st.heap.length = K := le_antisymm inv.bounded hKle
    have hperm : (st.heap ++ [(v.neg, p)]).Perm (m :: h2) := perm_push_pop hms
    have hPP : (pathsOf st.heap ++ [p]).Perm (m.2 :: pathsOf h2) := by
      have hmp2 := hperm.map Prod.snd
      simpa [pathsOf] using hmp2
    have hndl : (pathsOf st.heap ++ [p]).Nodup := by
      refine List.Nodup.append inv.nodupPaths (List.nodup_singleton p) ?_
      intro a ha hb
      rw [List.mem_singleton] at hb
      subst hb
      exact hfresh ha
    have hnd2 : (m.2 :: pathsOf h2).Nodup := hPP.nodup_iff.1 hndl
    have hm2nin : m.2 ∉ pathsOf h2 := (List.nodup_cons.1 hnd2).1
    have hnd2h : (pathsOf h2).Nodup := (List.nodup_cons.1 hnd2).2
    have hqiff : ∀ q : Path,
        (q = m.2 ∨ q ∈ pathsOf h2) ↔ (q ∈ pathsOf st.heap ∨ q = p) := by
      intro q
      constructor
      · intro hc
        have h0 : q ∈ pathsOf st.heap ++ [p] := hPP.mem_iff.2 (by simpa using hc)
        simpa using h0
      · intro hc
        have h0 : q ∈ m.2 :: pathsOf h2 := hPP.mem_iff.1 (by simpa using hc)
        simpa using h0
    have hmemh2 : ∀ r ∈ h2, r ∈ st.heap ∨ r = (v.neg, p) := by
      intro r hr
      have hre : r ∈ (↑st.heap + {((v.neg, p) : E)} : Multiset E) := by
        rw [hms]
        exact Multiset.mem_cons_of_mem (Multiset.mem_coe.2 hr)
      rcases Multiset.mem_add.1 hre with h1 | h1
      · exact Or.inl (Multiset.mem_coe.1 h1)
      · exact Or.inr (Multiset.mem_singleton.1 h1)
    have hmmem : m ∈ st.heap ∨ m = (v.neg, p) := by
      have hre : m ∈ (↑st.heap + {((v.neg, p) : E)} : Multiset E) := by
        rw [hms]
        exact Multiset.mem_cons_self _ _
      rcases Multiset.mem_add.1 hre with h1 | h1
      · exact Or.inl (Multiset.mem_coe.1 h1)
      · exact Or.inr (Multiset.mem_singleton.1 h1)
    have hmfin : m.1.isFin = true := by
      rcases hmmem with h1 | h1
      · exact inv.allFin m h1
      · rw [h1]
        exact hx
    have hpopped : (offer K st.heap v p).popped = some m := by
      by_cases hmp : m.2 = p
      · exact (hifp hmp).2.2
      · exact (hifn hmp).2.2
    have hdrop : (doOffer K st v p).dropped = st.dropped ++ [m] := by
      rw [doOffer_dropped, hpopped]
      rfl
    refine ⟨⟨hH, hF, ?_, ?_, ?_, ?_, ?_, ?_, ?_⟩, ?_⟩
    · show (doOffer K st v p).heap.length ≤ K
      rw [hdh]
      omega
    · show (pathsOf (doOffer K st v p).heap).Nodup
      rw [hdh]
      exact hnd2h
    · intro hne
      show (doOffer K st v p).heap.length = K
      rw [hdh]
      omega
    · intro e he r hr
      rw [hdrop] at he
      rw [show (doOffer K st v p).heap = h2 from hdh] at hr
      rw [List.mem_append, List.mem_singleton] at he
      rcases he with he1 | he1
      · have hefin := inv.dropFin e he1
        rcases hmemh2 r hr with hrh | hrx
        · exact inv.dropLe e he1 r hrh
        · rcases hmmem with hmh | hmx
          · have h1 : eLt (v.neg, p) m = false := by
              apply hmin
              rw [Multiset.mem_add]
              exact Or.inr (Multiset.mem_singleton.2 rfl)
            have h2f : eLt m e = false := inv.dropLe e he1 m hmh
            rw [hrx]
            exact eLt_neg_trans hx hmfin hefin h1 h2f
          · exfalso
            have hxh2 : ((v.neg, p) : E) ∈ h2 := hrx ▸ hr
            have hcanc : (↑st.heap : Multiset E) = ↑h2 := by
              have h0 := hms
              rw [hmx] at h0
              have h2e : (((v.neg, p) : E) ::ₘ ↑h2 : Multiset E) = ↑h2 + {((v.neg, p) : E)} := by
                rw [← Multiset.singleton_add, add_comm]
              rw [h2e] at h0
              exact add_right_cancel h0
            have hxh : ((v.neg, p) : E) ∈ st.heap := by
              have h0 : ((v.neg, p) : E) ∈ (↑st.heap : Multiset E) := by
                rw [hcanc]
                exact Multiset.mem_coe.2 hxh2
              exact Multiset.mem_coe.1 h0
            exact hfresh (mem_pathsOf hxh)
      · rw [he1]
        apply hmin
        rw [hms]
        exact Multiset.mem_cons_of_mem (Multiset.mem_coe.2 hr)
    · intro e he
      rw [hdrop] at he
      rw [List.mem_append, List.mem_singleton] at he
      rcases he with he1 | he1
      · exact inv.dropFin e he1
      · rw [he1]
        exact hmfin
    · by_cases hmp : m.2 = p
      · -- rejected without write: no events, heap loses nothing it had
        have hsc2 : ∀ q, saveCount (doOffer K st v p) q = saveCount st q := by
          intro q
          rw [saveCount_doOffer, (hifp hmp).1]
          rfl
        have hrc2 : ∀ q, removeCount (doOffer K st v p) q = removeCount st q := by
          intro q
          rw [removeCount_doOffer, (hifp hmp).2.1]
          rfl
        intro q hq
        rw [show (doOffer K st v p).heap = h2 from hdh] at hq
        have hqh : q ∈ pathsOf st.heap := by
          rcases (hqiff q).1 (Or.inr hq) with h1 | h1
          · exact h1
          · exfalso
            exact hm2nin ((h1.trans hmp.symm) ▸ hq)
        obtain ⟨hs1, hr1⟩ := inv.savedRet q hqh
        rw [hsc2 q, hrc2 q]
        exact ⟨hs1, hr1⟩
      · -- accepted: save new path, remove the popped one
        have hsc2 : ∀ q, saveCount (doOffer K st v p) q
            = saveCount st q + List.count q [p] := by
          intro q
          rw [saveCount_doOffer, (hifn hmp).1]
        have hrc2 : ∀ q, removeCount (doOffer K st v p) q
            = removeCount st q + List.count q [m.2] := by
          intro q
          rw [removeCount_doOffer, (hifn hmp).2.1]
        intro q hq
        rw [show (doOffer K st v p).heap = h2 from hdh] at hq
        by_cases hqp : q = p
        · subst hqp
          rw [hsc2 q, hrc2 q, hsc, hrc, count_singleton_self,
            count_singleton_ne (fun hc => hmp hc.symm)]
          exact ⟨rfl, rfl⟩
        · have hqm : q ≠ m.2 := fun hc => hm2nin (hc ▸ hq)
          have hqh : q ∈ pathsOf st.heap := by
            rcases (hqiff q).1 (Or.inr hq) with h1 | h1
            · exact h1
            · exact absurd h1 hqp
          obtain ⟨hs1, hr1⟩ := inv.savedRet q hqh
          rw [hsc2 q, hrc2 q, hs1, hr1, count_singleton_ne hqp,
            count_singleton_ne hqm]
          exact ⟨rfl, rfl⟩
    · by_cases hmp : m.2 = p
      · have hsc2 : ∀ q, saveCount (doOffer K st v p) q = saveCount st q := by
          intro q
          rw [saveCount_doOffer, (hifp hmp).1]
          rfl
        have hrc2 : ∀ q, removeCount (doOffer K st v p) q = removeCount st q := by
          intro q
          rw [removeCount_doOffer, (hifp hmp).2.1]
          rfl
        intro q hq
        rw [show (doOffer K st v p).heap = h2 from hdh] at hq
        have hqh : q ∉ pathsOf st.heap := by
          intro hc
          rcases (hqiff q).2 (Or.inl hc) with h1 | h1
          · exact hfresh ((h1.trans hmp) ▸ hc)
          · exact hq h1
        rw [hsc2 q, hrc2 q]
        exact inv.savedGone q hqh
      · have hsc2 : ∀ q, saveCount (doOffer K st v p) q
            = saveCount st q + List.count q [p] := by
          intro q
          rw [saveCount_doOffer, (hifn hmp).1]
        have hrc2 : ∀ q, removeCount (doOffer K st v p) q
            = removeCount st q + List.count q [m.2] := by
          intro q
          rw [removeCount_doOffer, (hifn hmp).2.1]
        have hm_in_h : m ∈ st.heap := by
          rcases hmmem with h1 | h1
          · exact h1
          · exact absurd (by rw [h1]) hmp
        have hm2h : m.2 ∈ pathsOf st.heap := mem_pathsOf hm_in_h
        have hp_in_h2 : p ∈ pathsOf h2 := by
          rcases (hqiff p).2 (Or.inr rfl) with h1 | h1
          · exact absurd h1.symm hmp
          · exact h1
        intro q hq
        rw [show (doOffer K st v p).heap = h2 from hdh] at hq
        by_cases hqm : q = m.2
        · obtain ⟨hs1, hr1⟩ := inv.savedRet m.2 hm2h
          rw [hsc2 q, hrc2 q, hqm, hs1, hr1, count_singleton_ne hmp,
            count_singleton_self]
          omega
        · have hqp : q ≠ p := fun hc => hq (hc ▸ hp_in_h2)
          have hqh : q ∉ pathsOf st.heap := by
            intro hc
            rcases (hqiff q).2 (Or.inl hc) with h1 | h1
            · exact hqm h1
            · exact hq h1
          obtain ⟨hg1, hg2⟩ := inv.savedGone q hqh
          rw [hsc2 q, hrc2 q, count_singleton_ne hqp, count_singleton_ne hqm]
          omega
    · intro q hqh hqp
      have hqn2 : q ∉ pathsOf h2 := by
        intro hc
        rcases (hqiff q).1 (Or.inr hc) with h1 | h1
        · exact hqh h1
        · exact hqp h1
      refine ⟨?_, ?_, ?_⟩
      · rw [show (doOffer K st v p).heap = h2 from hdh]
        exact hqn2
      · by_cases hmp : m.2 = p
        · rw [saveCount_doOffer, (hifp hmp).1]
          rfl
        · rw [saveCount_doOffer, (hifn hmp).1, count_singleton_ne hqp]
          omega
      · by_cases hmp : m.2 = p
        · rw [removeCount_doOffer, (hifp hmp).2.1]
          rfl
        · have hqm : q ≠ m.2 := by
            intro hc
            rcases hmmem with h1 | h1
            · exact hqh (hc ▸ mem_pathsOf h1)
            · exact hqp (hc.trans (by rw [h1]))
          rw [removeCount_doOffer, (hifn hmp).2.1, count_singleton_ne hqm]
          omega

/-- Folding fresh, finite, duplicate-free offers preserves the run
invariant. -/
theorem runOffers_master (K : ℕ) :
    ∀ (os : List (HVal × Path)) (st : RunSt),
    (∀ o ∈ os, o.1.isFin = true) → (os.map Prod.snd).Nodup → FreshFor st os →
    RunInv K st →
    RunInv K (os.foldl (fun st o => doOffer K st o.1 o.2) st) := by
  intro os
  induction os with
  | nil =>
    intro st _ _ _ inv
    exact inv
  | cons o rest ih =>
    intro st hfin hnd hfr inv
    simp only [List.foldl_cons]
    obtain ⟨hohead, hsc0, hrc0⟩ := hfr o (List.mem_cons_self o rest)
    obtain ⟨inv2, hpres⟩ :=
      doOffer_inv inv (hfin o (List.mem_cons_self o rest)) hohead hsc0 hrc0
    refine ih _ (fun q hq => hfin q (List.mem_cons_of_mem o hq)) ?_ ?_ inv2
    · simp only [List.map_cons, List.nodup_cons] at hnd
      exact hnd.2
    · intro o2 ho2
      have ho2r : o2.2 ≠ o.2 := by
        simp only [List.map_cons, List.nodup_cons] at hnd
        intro hc
        exact hnd.1 (hc ▸ List.mem_map_of_mem Prod.snd ho2)
      obtain ⟨h1, h2, h3⟩ := hfr o2 (List.mem_cons_of_mem o ho2)
      obtain ⟨hp1, hp2, hp3⟩ := hpres o2.2 h1 ho2r
      exact ⟨hp1, hp2.trans h2, hp3.trans h3⟩

/-- The empty store satisfies the invariant. -/
theorem initSt_inv (K : ℕ) : RunInv K initSt := by
  refine ⟨?_, ?_, ?_, ?_, ?_, ?_, ?_, ?_, ?_⟩
  · intro j hj hj0
    simp [initSt] at hj
  · intro e he
    simp [initSt] at he
  · show (0 : ℕ) ≤ K
    omega
  · exact List.nodup_nil
  · intro hne
    exact absurd rfl hne
  · intro e he
    simp [initSt] at he
  · intro e he
    simp [initSt] at he
  · intro q hq
    simp [initSt, pathsOf] at hq
  · intro q hq
    exact ⟨rfl, Nat.zero_le 1⟩

/-- Any all-finite duplicate-free run satisfies the invariant. -/
theorem runOffers_inv (K : ℕ) (offers : List (HVal × Path))
    (hfin : ∀ o ∈ offers, o.1.isFin = true)
    (hnd : (offers.map Prod.snd).Nodup) :
    RunInv K (runOffers K offers) := by
  refine runOffers_master K offers initSt hfin hnd ?_ (initSt_inv K)
  intro o ho
  refine ⟨?_, rfl, rfl⟩
  simp [initSt, pathsOf]

/-- C3: for every sequence of finite-scored offers with distinct handles,
at every point every entry ever evicted or rejected by some offer is no
better - `eLt r e = false`, i.e. not strictly better under the code's key
order on `(-val_loss, path)` pairs (score ascending on the negated loss,
then handle) - than every entry currently retained: the store holds the
best candidates seen so far. -/
theorem C3_monotone_optimality (K : ℕ) (offers : List (HVal × Path))
    (hfin : ∀ o ∈ offers, o.1.isFin = true)
    (hnd : (offers.map Prod.snd).Nodup) :
    ∀ e ∈ (runOffers K offers).dropped, ∀ r ∈ (runOffers K offers).heap,
      eLt r e = false :=
  (runOffers_inv K offers hfin hnd).dropLe

theorem C3_monotone_optimality_witness :
    (∀ o ∈ ([(HVal.fin 2, chkPath 0), (HVal.fin 1, chkPath 1),
        (HVal.fin 3, chkPath 2)] : List (HVal × Path)), o.1.isFin = true) ∧
    (([(HVal.fin 2, chkPath 0), (HVal.fin 1, chkPath 1),
        (HVal.fin 3, chkPath 2)] : List (HVal × Path)).map Prod.snd).Nodup ∧
    (∀ e ∈ (runOffers 1 [(HVal.fin 2, chkPath 0), (HVal.fin 1, chkPath 1),
        (HVal.fin 3, chkPath 2)]).dropped,
      ∀ r ∈ (runOffers 1 [(HVal.fin 2, chkPath 0), (HVal.fin 1, chkPath 1),
        (HVal.fin 3, chkPath 2)]).heap, eLt r e = false) :=
  ⟨by decide, by decide,
    C3_monotone_optimality 1 [(HVal.fin 2, chkPath 0), (HVal.fin 1, chkPath 1),
      (HVal.fin 3, chkPath 2)] (by decide) (by decide)⟩

/-- C7 fails on the full training loop: with `keep_best = 1`,
`save_delay = 1` and two epochs of strictly worsening losses `[1, 2]`, the
unconditional last-epoch save (lines 181-185) calls `torch.save` on
`chk-0001.pth.tar` even though that offer was just rejected without write;
the file is not among the retained entries and `os.remove` is never called
on it - an orphan artifact. -/
theorem C7_counterexample :
    saveCount (fullRun 1 1 [HVal.fin 1, HVal.fin 2]) (chkPath 1) = 1 ∧
    chkPath 1 ∉ pathsOf (fullRun 1 1 [HVal.fin 1, HVal.fin 2]).heap ∧
    removeCount (fullRun 1 1 [HVal.fin 1, HVal.fin 2]) (chkPath 1) = 0 := by
  decide

/-- C7 (amended): the no-orphan-artifacts invariant does hold for the
offer loop proper (lines 159-179), i.e. for any run without the
unconditional last-epoch save of lines 181-185: after any sequence of
finite-scored offers with distinct handles, every retained handle has had
`torch.save` called on it exactly once and `os.remove` never, and every
no-longer-retained handle that was ever saved has had `os.remove` called
on it exactly once. -/
theorem C7_amended_offers_no_orphans (K : ℕ) (offers : List (HVal × Path))
    (hfin : ∀ o ∈ offers, o.1.isFin = true)
    (hnd : (offers.map Prod.snd).Nodup) :
    (∀ q ∈ pathsOf (runOffers K offers).heap,
      saveCount (runOffers K offers) q = 1 ∧
      removeCount (runOffers K offers) q = 0) ∧
    (∀ q : Path, q ∉ pathsOf (runOffers K offers).heap →
      1 ≤ saveCount (runOffers K offers) q →
      saveCount (runOffers K offers) q = 1 ∧
      removeCount (runOffers K offers) q = 1) := by
  have inv := runOffers_inv K offers hfin hnd
  refine ⟨inv.savedRet, ?_⟩
  intro q hq hs
  obtain ⟨hg1, hg2⟩ := inv.savedGone q hq
  omega

theorem C7_amended_offers_no_orphans_witness :
    (∀ o ∈ ([(HVal.fin 2, chkPath 0), (HVal.fin 1, chkPath 1),
        (HVal.fin 3, chkPath 2)] : List (HVal × Path)), o.1.isFin = true) ∧
    (([(HVal.fin 2, chkPath 0), (HVal.fin 1, chkPath 1),
        (HVal.fin 3, chkPath 2)] : List (HVal × Path)).map Prod.snd).Nodup ∧
    ((∀ q ∈ pathsOf (runOffers 1 [(HVal.fin 2, chkPath 0), (HVal.fin 1, chkPath 1),
        (HVal.fin 3, chkPath 2)]).heap,
      saveCount (runOffers 1 [(HVal.fin 2, chkPath 0), (HVal.fin 1, chkPath 1),
        (HVal.fin 3, chkPath 2)]) q = 1 ∧
      removeCount (runOffers 1 [(HVal.fin 2, chkPath 0), (HVal.fin 1, chkPath 1),
        (HVal.fin 3, chkPath 2)]) q = 0) ∧
    (∀ q : Path, q ∉ pathsOf (runOffers 1 [(HVal.fin 2, chkPath 0), (HVal.fin 1, chkPath 1),
        (HVal.fin 3, chkPath 2)]).heap →
      1 ≤ saveCount (runOffers 1 [(HVal.fin 2, chkPath 0), (HVal.fin 1, chkPath 1),
        (HVal.fin 3, chkPath 2)]) q →
      saveCount (runOffers 1 [(HVal.fin 2, chkPath 0), (HVal.fin 1, chkPath 1),
        (HVal.fin 3, chkPath 2)]) q = 1 ∧
      removeCount (runOffers 1 [(HVal.fin 2, chkPath 0), (HVal.fin 1, chkPath 1),
        (HVal.fin 3, chkPath 2)]) q = 1)) :=
  ⟨by decide, by decide,
    C7_amended_offers_no_orphans 1 [(HVal.fin 2, chkPath 0), (HVal.fin 1, chkPath 1),
      (HVal.fin 3, chkPath 2)] (by decide) (by decide)⟩

/-- C10: at capacity, an offer whose score ties the current worst retained
score is never rejected without write: the heap key is
`(-val_loss, path)` and the candidate's handle is lexicographically larger
than every retained handle (the paths grow monotonically), so the popped
minimum is the tied retained entry with the smallest handle - which is the
root - and the new candidate is accepted: it is saved and the root's file
is removed. -/
theorem C10_tie_break (K : ℕ) (h : List E) (w : ℚ) (p : Path)
    (hh : IsHeap h) (hf : AllFin h) (hlen : h.length = K) (hK : 0 < K)
    (hroot : (h.getD 0 dE).1 = HVal.fin (-w))
    (hgt : ∀ q ∈ pathsOf h, lexLt q p = true) :
    (offer K h (HVal.fin w) p).rejected = false ∧
    (offer K h (HVal.fin w) p).saved = [p] ∧
    (offer K h (HVal.fin w) p).removed = [(h.getD 0 dE).2] ∧
    (∀ e ∈ h, e.1 = (h.getD 0 dE).1 → lexLt e.2 (h.getD 0 dE).2 = false) := by
  obtain ⟨hH, hF, hstep⟩ :=
    offer_step (K := K) (v := HVal.fin w) (p := p) hh hf rfl
  have hrootmem : h.getD 0 dE ∈ h := getD_mem (by omega)
  have hfresh : p ∉ pathsOf h := by
    intro hc
    have h0 := hgt p hc
    rw [lexLt_irrefl] at h0
    simp at h0
  have hrx : eLt (h.getD 0 dE) ((HVal.fin w).neg, p) = true := by
    have heq : h.getD 0 dE = (HVal.fin (-w), (h.getD 0 dE).2) := by
      rw [← hroot]
    rw [heq]
    show eLt (HVal.fin (-w), (h.getD 0 dE).2) (HVal.fin (-w), p) = true
    rw [eLt_fin_fin, if_pos rfl]
    exact hgt _ (mem_pathsOf hrootmem)
  rcases hstep with ⟨hlt, hofr, hms⟩ | ⟨hKle, m, h2, hpop, hheap, hrej, hifp, hifn, hms, hmin⟩
  · omega
  · have hrmin := hmin (h.getD 0 dE)
      (by rw [Multiset.mem_add]; exact Or.inl (Multiset.mem_coe.2 hrootmem))
    have hm_ne_x : m ≠ ((HVal.fin w).neg, p) := by
      intro hc
      rw [hc] at hrmin
      rw [hrmin] at hrx
      simp at hrx
    have hm_in_h : m ∈ h := by
      have hre : m ∈ (↑h + {(((HVal.fin w).neg, p) : E)} : Multiset E) := by
        rw [hms]
        exact Multiset.mem_cons_self _ _
      rcases Multiset.mem_add.1 hre with h4 | h4
      · exact Multiset.mem_coe.1 h4
      · exact absurd (Multiset.mem_singleton.1 h4) hm_ne_x
    have hmfin : m.1.isFin = true := hf m hm_in_h
    have hrootfin : (h.getD 0 dE).1.isFin = true := hf _ hrootmem
    have hmle : eLt m (h.getD 0 dE) = false := isHeap_root_min_mem hh hf hm_in_h
    have hmw : m = h.getD 0 dE := by
      rcases eLt_trichotomy hmfin hrootfin with h5 | h5 | h5
      · rw [hmle] at h5
        simp at h5
      · exact h5
      · rw [hrmin] at h5
        simp at h5
    have hmp : m.2 ≠ p := by
      intro hc
      exact hfresh (hc ▸ mem_pathsOf hm_in_h)
    obtain ⟨hsv, hrm, hpp⟩ := hifn hmp
    refine ⟨?_, hsv, ?_, ?_⟩
    · cases hb : (offer K h (HVal.fin w) p).rejected
      · rfl
      · exact absurd (hrej.1 hb) hmp
    · rw [hrm, hmw]
    · intro e he he1
      have h0 := isHeap_root_min_mem hh hf he
      have heq1 : e = (HVal.fin (-w), e.2) := by
        rw [← hroot, ← he1]
      have heq2 : h.getD 0 dE = (HVal.fin (-w), (h.getD 0 dE).2) := by
        rw [← hroot]
      rw [heq1, heq2, eLt_fin_fin, if_pos rfl] at h0
      exact h0

theorem C10_tie_break_witness :
    IsHeap [((HVal.fin (-2), chkPath 0) : E)] ∧
    AllFin [((HVal.fin (-2), chkPath 0) : E)] ∧
    ([((HVal.fin (-2), chkPath 0) : E)].length = 1) ∧ (0 : ℕ) < 1 ∧
    (([((HVal.fin (-2), chkPath 0) : E)].getD 0 dE).1 = HVal.fin (-2)) ∧
    (∀ q ∈ pathsOf [((HVal.fin (-2), chkPath 0) : E)], lexLt q (chkPath 1) = true) ∧
    ((offer 1 [((HVal.fin (-2), chkPath 0) : E)] (HVal.fin 2) (chkPath 1)).rejected = false ∧
     (offer 1 [((HVal.fin (-2), chkPath 0) : E)] (HVal.fin 2) (chkPath 1)).saved = [chkPath 1] ∧
     (offer 1 [((HVal.fin (-2), chkPath 0) : E)] (HVal.fin 2) (chkPath 1)).removed
       = [([((HVal.fin (-2), chkPath 0) : E)].getD 0 dE).2] ∧
     (∀ e ∈ [((HVal.fin (-2), chkPath 0) : E)],
       e.1 = ([((HVal.fin (-2), chkPath 0) : E)].getD 0 dE).1 →
       lexLt e.2 ([((HVal.fin (-2), chkPath 0) : E)].getD 0 dE).2 = false)) :=
  ⟨by decide, by decide, by decide, by decide, by decide, by decide,
    C10_tie_break 1 [((HVal.fin (-2), chkPath 0) : E)] 2 (chkPath 1)
      (by decide) (by decide) (by decide) (by decide) (by decide) (by decide)⟩

/-- On finite-scored entries the spec's worse-than order agrees with the
code's heap-key order. -/
theorem specWorseLt_fin {a b : E} (ha : a.1.isFin = true) (hb : b.1.isFin = true) :
    specWorseLt a b = eLt a b := by
  obtain ⟨a1, a2⟩ := a
  obtain ⟨b1, b2⟩ := b
  cases a1 with
  | nan => simp [HVal.isFin] at ha
  | fin qa =>
    cases b1 with
    | nan => simp [HVal.isFin] at hb
    | fin qb => rfl

theorem specWorst_foldl (t : List E) : ∀ a : E, a.1.isFin = true →
    (∀ y ∈ t, y.1.isFin = true) →
    (t.foldl (fun w y => if specWorseLt y w then y else w) a = a ∨
      t.foldl (fun w y => if specWorseLt y w then y else w) a ∈ t) ∧
    eLt a (t.foldl (fun w y => if specWorseLt y w then y else w) a) = false ∧
    (∀ y ∈ t, eLt y (t.foldl (fun w y => if specWorseLt y w then y else w) a) = false) := by
  induction t with
  | nil =>
    intro a ha _
    refine ⟨Or.inl rfl, ?_, ?_⟩
    · show eLt a a = false
      exact eLt_irrefl a
    · intro y hy
      exact absurd hy (List.not_mem_nil y)
  | cons b t ih =>
    intro a ha hall
    rw [List.foldl_cons]
    have hbfin : b.1.isFin = true := hall b (List.mem_cons_self b t)
    have htfin : ∀ y ∈ t, y.1.isFin = true :=
      fun y hy => hall y (List.mem_cons_of_mem b hy)
    by_cases hsw : specWorseLt b a = true
    · rw [if_pos hsw]
      obtain ⟨hmem, hle1, hle2⟩ := ih b hbfin htfin
      have hba : eLt b a = true := by
        rw [← specWorseLt_fin hbfin ha]
        exact hsw
      have hrfin : (t.foldl (fun w y => if specWorseLt y w then y else w) b).1.isFin = true := by
        rcases hmem with h1 | h1
        · rw [h1]
          exact hbfin
        · exact htfin _ h1
      refine ⟨?_, ?_, ?_⟩
      · rcases hmem with h1 | h1
        · rw [h1]
          exact Or.inr (List.mem_cons_self b t)
        · exact Or.inr (List.mem_cons_of_mem b h1)
      · cases har : eLt a (t.foldl (fun w y => if specWorseLt y w then y else w) b)
        · rfl
        · have h4 := eLt_trans hba har
          rw [hle1] at h4
          simp at h4
      · intro y hy
        rcases List.mem_cons.1 hy with h1 | h1
        · rw [h1]
          exact hle1
        · exact hle2 y h1
    · rw [if_neg hsw]
      obtain ⟨hmem, hle1, hle2⟩ := ih a ha htfin
      have hba : eLt b a = false := by
        rw [← specWorseLt_fin hbfin ha]
        cases hb : specWorseLt b a
        · rfl
        · exact absurd hb hsw
      have hrfin : (t.foldl (fun w y => if specWorseLt y w then y else w) a).1.isFin = true := by
        rcases hmem with h1 | h1
        · rw [h1]
          exact ha
        · exact htfin _ h1
      refine ⟨?_, hle1, ?_⟩
      · rcases hmem with h1 | h1
        · exact Or.inl h1
        · exact Or.inr (List.mem_cons_of_mem b h1)
      · intro y hy
        rcases List.mem_cons.1 hy with h1 | h1
        · rw [h1]
          exact eLt_neg_trans hbfin ha hrfin hba hle1
        · exact hle2 y h1

/-- `find-worst` on a nonempty all-finite store returns a member that is
minimal in the code's key order. -/
theorem specWorst_spec {l : List E} (hne : l ≠ []) (hf : AllFin l) :
    ∃ w, specWorst l = some w ∧ w ∈ l ∧ ∀ y ∈ l, eLt y w = false := by
  cases l with
  | nil => exact absurd rfl hne
  | cons e t =>
    obtain ⟨hmem, hle1, hle2⟩ := specWorst_foldl t e (hf e (List.mem_cons_self e t))
      (fun y hy => hf y (List.mem_cons_of_mem e hy))
    refine ⟨t.foldl (fun w y => if specWorseLt y w then y else w) e, rfl, ?_, ?_⟩
    · rcases hmem with h1 | h1
      · rw [h1]
        exact List.mem_cons_self e t
      · exact List.mem_cons_of_mem e h1
    · intro y hy
      rcases List.mem_cons.1 hy with h1 | h1
      · rw [h1]
        exact hle1
      · exact hle2 y h1

/-- C9 fails in general: on a NaN-scored candidate at capacity the code's
push-then-pop procedure and the spec's compare-before-materialize
algorithm disagree.  With one retained finite entry and capacity 1, the
code accepts the NaN candidate (every Python comparison against the NaN
tuple is False, so the pop returns the finite root) and retains the NaN
checkpoint, while the spec algorithm orders NaN as worst, rejects it
without write, and keeps the finite entry. -/
theorem C9_counterexample :
    (offer 1 [(HVal.fin (-2), chkPath 0)] HVal.nan (chkPath 1)).rejected = false ∧
    (specOffer 1 [(HVal.fin (-2), chkPath 0)] (HVal.nan, chkPath 1)).rejected = true ∧
    pathsOf (offer 1 [(HVal.fin (-2), chkPath 0)] HVal.nan (chkPath 1)).heap
      = [chkPath 1] ∧
    pathsOf (specOffer 1 [(HVal.fin (-2), chkPath 0)] (HVal.nan, chkPath 1)).entries
      = [chkPath 0] := by
  decide

/-- C9 (amended): restricted to finite scores the refinement does hold.
For any valid all-finite heap not above capacity and any finite-scored
candidate at a fresh path, the code's push-then-pop procedure (lines
168-174) returns the same accept/reject outcome as the spec's
compare-before-materialize algorithm, and the retained entries agree as
multisets. -/
theorem C9_amended_fin_refinement (K : ℕ) (h : List E) (v : HVal) (p : Path)
    (hK : 0 < K) (hh : IsHeap h) (hf : AllFin h) (hle : h.length ≤ K)
    (hfresh : p ∉ pathsOf h) (hvfin : v.isFin = true) :
    (offer K h v p).rejected = (specOffer K h (v.neg, p)).rejected ∧
    (↑(offer K h v p).heap : Multiset E) = ↑(specOffer K h (v.neg, p)).entries := by
  obtain ⟨hH, hF, hstep⟩ := offer_step (K := K) (p := p) hh hf hvfin
  have hx : ((v.neg, p) : E).1.isFin = true := by
    show v.neg.isFin = true
    rw [neg_isFin]
    exact hvfin
  rcases hstep with ⟨hlt, hofr, hms⟩ | ⟨hKle, m, h2, hpop, hheap, hrej, hifp, hifn, hms, hmin⟩
  · -- below capacity: both sides accept and just insert
    have hspec : specOffer K h (v.neg, p)
        = { entries := (v.neg, p) :: h, rejected := false } := by
      unfold specOffer
      rw [if_pos hlt]
    refine ⟨?_, ?_⟩
    · rw [hofr, hspec]
    · rw [hspec, hms]
      show (↑h + {((v.neg, p) : E)} : Multiset E) = ↑(((v.neg, p) : E) :: h)
      rw [← Multiset.cons_coe, ← Multiset.singleton_add, add_comm]
  · -- at capacity
    have hlenK : h.length = K := le_antisymm hle hKle
    have hne : h ≠ [] := by
      intro hc
      rw [hc] at hlenK
      simp at hlenK
      omega
    obtain ⟨w, hw, hwmem, hwmin⟩ := specWorst_spec hne hf
    have hwfin : w.1.isFin = true := hf w hwmem
    have hspec : specOffer K h (v.neg, p)
        = if specWorseLt w (v.neg, p) then
            { entries := (v.neg, p) :: @List.erase E instBEqOfDecidableEq h w,
              rejected := false }
          else { entries := h, rejected := true } := by
      unfold specOffer
      rw [if_neg (by omega), hw]
    by_cases hwx : specWorseLt w (v.neg, p) = true
    · -- spec accepts: the popped minimum is exactly the spec's worst entry
      have hewx : eLt w (v.neg, p) = true := by
        rw [← specWorseLt_fin hwfin hx]
        exact hwx
      have hm_ne_x : m ≠ ((v.neg, p) : E) := by
        intro hc
        have h0 : eLt w m = false := hmin w
          (by rw [Multiset.mem_add]; exact Or.inl (Multiset.mem_coe.2 hwmem))
        rw [hc] at h0
        rw [h0] at hewx
        simp at hewx
      have hm_in_h : m ∈ h := by
        have hre : m ∈ (↑h + {((v.neg, p) : E)} : Multiset E) := by
          rw [hms]
          exact Multiset.mem_cons_self _ _
        rcases Multiset.mem_add.1 hre with h4 | h4
        · exact Multiset.mem_coe.1 h4
        · exact absurd (Multiset.mem_singleton.1 h4) hm_ne_x
      have hmfin : m.1.isFin = true := hf m hm_in_h
      have h1 : eLt m w = false := hwmin m hm_in_h
      have h2w : eLt w m = false := hmin w
        (by rw [Multiset.mem_add]; exact Or.inl (Multiset.mem_coe.2 hwmem))
      have hmw : m = w := by
        rcases eLt_trichotomy hmfin hwfin with h5 | h5 | h5
        · rw [h1] at h5
          simp at h5
        · exact h5
        · rw [h2w] at h5
          simp at h5
      have hmp : m.2 ≠ p := by
        intro hc
        exact hfresh (hc ▸ mem_pathsOf hm_in_h)
      refine ⟨?_, ?_⟩
      · rw [hspec, if_pos hwx]
        cases hb : (offer K h v p).rejected
        · rfl
        · exact absurd (hrej.1 hb) hmp
      · rw [hspec, if_pos hwx, hheap]
        have e1 : ((↑h + {((v.neg, p) : E)} : Multiset E)).erase m = ↑h2 := by
          rw [hms]
          exact Multiset.erase_cons_head m ↑h2
        have e2 : ((↑h + {((v.neg, p) : E)} : Multiset E)).erase m
            = (↑h : Multiset E).erase m + {((v.neg, p) : E)} :=
          Multiset.erase_add_left_pos _ (Multiset.mem_coe.2 hm_in_h)
        have e3 : (↑h2 : Multiset E) = (↑h : Multiset E).erase m + {((v.neg, p) : E)} := by
          rw [← e1]
          exact e2
        rw [e3, hmw]
        show ((↑h : Multiset E).erase w + {((v.neg, p) : E)} : Multiset E)
          = ↑(((v.neg, p) : E) :: @List.erase E instBEqOfDecidableEq h w)
        rw [Multiset.coe_erase, ← Multiset.cons_coe, ← Multiset.singleton_add, add_comm]
    · -- spec rejects: the popped minimum is the candidate itself
      have hewx : eLt w (v.neg, p) = false := by
        rw [← specWorseLt_fin hwfin hx]
        cases hb : specWorseLt w (v.neg, p)
        · rfl
        · exact absurd hb hwx
      have hxw : eLt (v.neg, p) w = true := by
        rcases eLt_trichotomy hwfin hx with h3 | h3 | h3
        · rw [hewx] at h3
          simp at h3
        · exfalso
          have h7 := mem_pathsOf hwmem
          rw [h3] at h7
          exact hfresh h7
        · exact h3
      have hymin : ∀ y ∈ h, eLt y (v.neg, p) = false := by
        intro y hy
        cases hyx : eLt y (v.neg, p)
        · rfl
        · exfalso
          have h4 := eLt_trans hyx hxw
          rw [hwmin y hy] at h4
          simp at h4
      have hmx : m = ((v.neg, p) : E) := by
        have hre : m ∈ (↑h + {((v.neg, p) : E)} : Multiset E) := by
          rw [hms]
          exact Multiset.mem_cons_self _ _
        rcases Multiset.mem_add.1 hre with h4 | h4
        · have hm_in_h := Multiset.mem_coe.1 h4
          have hmfin : m.1.isFin = true := hf m hm_in_h
          rcases eLt_trichotomy hmfin hx with h5 | h5 | h5
          · rw [hymin m hm_in_h] at h5
            simp at h5
          · exact h5
          · have h6 := hmin (v.neg, p)
              (by rw [Multiset.mem_add]; exact Or.inr (Multiset.mem_singleton.2 rfl))
            rw [h6] at h5
            simp at h5
        · exact Multiset.mem_singleton.1 h4
      have hmp : m.2 = p := by rw [hmx]
      refine ⟨?_, ?_⟩
      · rw [hspec, if_neg hwx]
        exact hrej.2 hmp
      · rw [hspec, if_neg hwx, hheap]
        have e1 : (↑h + {((v.neg, p) : E)} : Multiset E)
            = ↑h2 + {((v.neg, p) : E)} := by
          rw [hms, hmx, ← Multiset.singleton_add, add_comm]
        exact (add_right_cancel e1).symm

theorem C9_amended_fin_refinement_witness :
    (0 : ℕ) < 1 ∧ IsHeap [((HVal.fin (-2), chkPath 0) : E)] ∧
    AllFin [((HVal.fin (-2), chkPath 0) : E)] ∧
    [((HVal.fin (-2), chkPath 0) : E)].length ≤ 1 ∧
    chkPath 1 ∉ pathsOf [((HVal.fin (-2), chkPath 0) : E)] ∧
    (HVal.fin 1).isFin = true ∧
    ((offer 1 [((HVal.fin (-2), chkPath 0) : E)] (HVal.fin 1) (chkPath 1)).rejected
       = (specOffer 1 [((HVal.fin (-2), chkPath 0) : E)] ((HVal.fin 1).neg, chkPath 1)).rejected ∧
     (↑(offer 1 [((HVal.fin (-2), chkPath 0) : E)] (HVal.fin 1) (chkPath 1)).heap : Multiset E)
       = ↑(specOffer 1 [((HVal.fin (-2), chkPath 0) : E)] ((HVal.fin 1).neg, chkPath 1)).entries) :=
  ⟨by decide, by decide, by decide, by decide, by decide, by decide,
    C9_amended_fin_refinement 1 [((HVal.fin (-2), chkPath 0) : E)] (HVal.fin 1) (chkPath 1)
      (by decide) (by decide) (by decide) (by decide) (by decide) (by decide)⟩

/-- C1 fails on NaN-containing runs: with `keep_best = 4` and offered
losses `[4, nan, 3, 5]`, the NaN tuple blocks the sift-up (every
comparison against it is False), so the final heap array is
`[(-4, chk-0000), (nan, chk-0001), (-3, chk-0002), (-5, chk-0003)]`:
more than one entry is retained, the retained scores are distinct, yet
`finalize` returns `chk-0000` (loss 4) while the retained `chk-0003` has
the strictly worse loss 5 - the returned handle is not the worst-score
retained entry. -/
theorem C1_counterexample :
    1 < (runOffers 4 [(HVal.fin 4, chkPath 0), (HVal.nan, chkPath 1),
      (HVal.fin 3, chkPath 2), (HVal.fin 5, chkPath 3)]).heap.length ∧
    ((runOffers 4 [(HVal.fin 4, chkPath 0), (HVal.nan, chkPath 1),
      (HVal.fin 3, chkPath 2), (HVal.fin 5, chkPath 3)]).heap.map lossOf).Nodup ∧
    finalizeRun (runOffers 4 [(HVal.fin 4, chkPath 0), (HVal.nan, chkPath 1),
      (HVal.fin 3, chkPath 2), (HVal.fin 5, chkPath 3)]).heap
      = Except.ok (chkPath 0) ∧
    ((HVal.fin (-5), chkPath 3) : E) ∈ (runOffers 4 [(HVal.fin 4, chkPath 0),
      (HVal.nan, chkPath 1), (HVal.fin 3, chkPath 2), (HVal.fin 5, chkPath 3)]).heap ∧
    lossOf ((runOffers 4 [(HVal.fin 4, chkPath 0), (HVal.nan, chkPath 1),
      (HVal.fin 3, chkPath 2), (HVal.fin 5, chkPath 3)]).heap.getD 0 dE)
      < lossOf ((HVal.fin (-5), chkPath 3) : E) := by
  have hheap : (runOffers 4 [(HVal.fin 4, chkPath 0), (HVal.nan, chkPath 1),
      (HVal.fin 3, chkPath 2), (HVal.fin 5, chkPath 3)]).heap
      = [(HVal.fin (-4), chkPath 0), (HVal.nan, chkPath 1),
         (HVal.fin (-3), chkPath 2), (HVal.fin (-5), chkPath 3)] := by
    decide
  refine ⟨by decide, by decide, ?_, by decide, by decide⟩
  rw [hheap]
  rfl

/-- C3 fails on NaN-containing sequences: with `keep_best = 1` and
offered losses `[2, nan, 3]`, the NaN offer is accepted and evicts (and
deletes) the 2.0 checkpoint, then the 3.0 offer evicts the NaN and is
retained: the retained finite entry (loss 3) is strictly worse under the
code's key order than the evicted finite entry (loss 2). -/
theorem C3_counterexample :
    ((HVal.fin (-2), chkPath 0) : E) ∈ (runOffers 1 [(HVal.fin 2, chkPath 0),
      (HVal.nan, chkPath 1), (HVal.fin 3, chkPath 2)]).dropped ∧
    removeCount (runOffers 1 [(HVal.fin 2, chkPath 0), (HVal.nan, chkPath 1),
      (HVal.fin 3, chkPath 2)]) (chkPath 0) = 1 ∧
    ((HVal.fin (-3), chkPath 2) : E) ∈ (runOffers 1 [(HVal.fin 2, chkPath 0),
      (HVal.nan, chkPath 1), (HVal.fin 3, chkPath 2)]).heap ∧
    eLt (HVal.fin (-3), chkPath 2) (HVal.fin (-2), chkPath 0) = true := by
  decide

end TrainContours